import Mathlib

set_option maxHeartbeats 1000000

namespace XpellAgent

/-!
Shallow embedding of the skill/configuration subsystem of the xpell agent
runtime.  JSON-safe JavaScript values are modelled by the mutual inductive
family `JVal` / `JArr` / `JFields`: a plain object is an ordered list of
key/value bindings with JavaScript object semantics (unique keys, lookup by
first match, assignment replaces in place or appends, delete removes the
binding).  Functions are not representable, matching the "JSON-safe" values
the source accepts past its has_function guards.
-/

mutual
inductive JVal where
  | vnull : JVal
  | vbool : Bool → JVal
  | vnum  : Int → JVal
  | vstr  : String → JVal
  | varr  : JArr → JVal
  | vobj  : JFields → JVal
inductive JArr where
  | anil  : JArr
  | acons : JVal → JArr → JArr
inductive JFields where
  | fnil  : JFields
  | fcons : String → JVal → JFields → JFields
end

/-- Object lookup `obj[k]` (none = absent/undefined). -/
def objGet : JFields → String → Option JVal
  | .fnil, _ => none
  | .fcons k0 v0 rest, k => if k0 = k then some v0 else objGet rest k

/-- Object assignment `obj[k] = v`: replaces the existing binding in place,
appends at the end when the key is absent (JavaScript insertion order). -/
def objSet : JFields → String → JVal → JFields
  | .fnil, k, v => .fcons k v .fnil
  | .fcons k0 v0 rest, k, v =>
    if k0 = k then .fcons k v rest else .fcons k0 v0 (objSet rest k v)

/-- `delete obj[k]`. -/
def objDel : JFields → String → JFields
  | .fnil, _ => .fnil
  | .fcons k0 v0 rest, k => if k0 = k then rest else .fcons k0 v0 (objDel rest k)

/-- `Object.prototype.hasOwnProperty.call(obj, k)`. -/
def objHasKey : JFields → String → Bool
  | .fnil, _ => false
  | .fcons k0 _ rest, k => k0 == k || objHasKey rest k

/-- Keys of an object are pairwise distinct (always true of a real
JavaScript object; an invariant of this list-based representation). -/
def keysNodup : JFields → Bool
  | .fnil => true
  | .fcons k _ rest => !objHasKey rest k && keysNodup rest

mutual
/-- Well-formedness of a value in this representation: every object level
has pairwise-distinct keys.  Automatic for real JavaScript values. -/
def wf : JVal → Bool
  | .vobj fs => keysNodup fs && wfFields fs
  | .varr xs => wfArr xs
  | _ => true
def wfArr : JArr → Bool
  | .anil => true
  | .acons v rest => wf v && wfArr rest
def wfFields : JFields → Bool
  | .fnil => true
  | .fcons _ v rest => wf v && wfFields rest
end

mutual
/-- `deep_clone` from the settings utilities: structural copy.  On this
pure value model it is provably the identity (`deep_clone_eq` below), so
later definitions elide the clone calls the source makes. -/
def deep_clone : JVal → JVal
  | .varr xs => .varr (deep_clone_arr xs)
  | .vobj fs => .vobj (deep_clone_fields fs)
  | .vnull => .vnull
  | .vbool b => .vbool b
  | .vnum n => .vnum n
  | .vstr s => .vstr s
def deep_clone_arr : JArr → JArr
  | .anil => .anil
  | .acons v rest => .acons (deep_clone v) (deep_clone_arr rest)
def deep_clone_fields : JFields → JFields
  | .fnil => .fnil
  | .fcons k v rest => .fcons k (deep_clone v) (deep_clone_fields rest)
end

mutual
theorem deep_clone_eq : (v : JVal) → deep_clone v = v
  | .vnull => rfl
  | .vbool _ => rfl
  | .vnum _ => rfl
  | .vstr _ => rfl
  | .varr xs => congrArg JVal.varr (deep_clone_arr_eq xs)
  | .vobj fs => congrArg JVal.vobj (deep_clone_fields_eq fs)
theorem deep_clone_arr_eq : (xs : JArr) → deep_clone_arr xs = xs
  | .anil => rfl
  | .acons v rest => by rw [deep_clone_arr, deep_clone_eq v, deep_clone_arr_eq rest]
theorem deep_clone_fields_eq : (fs : JFields) → deep_clone_fields fs = fs
  | .fnil => rfl
  | .fcons k v rest => by rw [deep_clone_fields, deep_clone_eq v, deep_clone_fields_eq rest]
end

mutual
/-- `has_function` from the source modules: recursively looks for a
function-valued leaf.  JSON-safe values (all this model represents)
contain none, so this is constantly false, mirroring the traversal. -/
def has_function : JVal → Bool
  | .varr xs => has_function_arr xs
  | .vobj fs => has_function_fields fs
  | _ => false
def has_function_arr : JArr → Bool
  | .anil => false
  | .acons v rest => has_function v || has_function_arr rest
def has_function_fields : JFields → Bool
  | .fnil => false
  | .fcons _ v rest => has_function v || has_function_fields rest
end

/- Sanity checks that the model evaluates definitionally. -/
example : objGet (.fcons "a" (.vnum 1) .fnil) "a" = some (.vnum 1) := rfl
example : keysNodup (.fcons "a" .vnull (.fcons "a" .vnull .fnil)) = false := rfl

/-!
String helpers.  `String.trim`/`String.splitOn` are re-implemented over the
character list so that all definitions reduce definitionally; semantics match
the JavaScript `trim` and `split` used by the source.
-/

/-- `s.trim()` over the character list. -/
def trimChars (cs : List Char) : List Char :=
  ((cs.dropWhile Char.isWhitespace).reverse.dropWhile Char.isWhitespace).reverse

/-- JavaScript `s.trim()`. -/
def jsTrim (s : String) : String := String.mk (trimChars s.data)

/-- Split a character list at every occurrence of the separator char. -/
def splitCharsOn (sep : Char) : List Char → List (List Char)
  | [] => [[]]
  | c :: rest =>
    let tail := splitCharsOn sep rest
    if c = sep then [] :: tail
    else
      match tail with
      | [] => [[c]]
      | piece :: more => (c :: piece) :: more

/-- `split_path` from the settings utilities: split the dotted path on `"."`,
trim each part, drop empty parts. -/
def split_path (p : String) : List String :=
  ((splitCharsOn '.' p.data).map (fun cs => String.mk (trimChars cs))).filter
    (fun s => s ≠ "")

example : split_path "a.b" = ["a", "b"] := rfl
example : split_path " a . b " = ["a", "b"] := rfl
example : split_path "" = [] := rfl
example : split_path "a..b" = ["a", "b"] := rfl

/-- The sentinel constant standing in for any masked secret. -/
def MASK_SENTINEL : String := "••••••••"

/-- One step of `getByPath`'s cursor walk: descend into a plain object,
anything else yields undefined. -/
def getStep (cursor : Option JVal) (k : String) : Option JVal :=
  match cursor with
  | some (.vobj fs) => objGet fs k
  | _ => none

/-- `getByPath` on an already-split path: walk the parts; an empty list
returns the object itself. -/
def getByPathParts : Option JVal → List String → Option JVal
  | cur, [] => cur
  | cur, k :: rest => getByPathParts (getStep cur k) rest

/-- `getByPath(obj, dotted_path)` from the settings utilities. -/
def getByPath (obj : JVal) (dotted_path : String) : Option JVal :=
  getByPathParts (some obj) (split_path dotted_path)

/-- The child object `setByPath` descends into at an intermediate key:
the existing nested object, or a fresh `{}` when the slot is not a plain
object. -/
def childFields (fs : JFields) (k : String) : JFields :=
  match objGet fs k with
  | some (.vobj cs) => cs
  | _ => .fnil

/-- `setByPath` on an already-split path; the source deep-clones the stored
value, which is the identity here (`deep_clone_eq`).  An empty parts list
leaves the object unchanged. -/
def setByPathParts : JFields → List String → JVal → JFields
  | fs, [], _ => fs
  | fs, [k], v => objSet fs k v
  | fs, k :: k2 :: rest, v =>
    objSet fs k (.vobj (setByPathParts (childFields fs k) (k2 :: rest) v))

/-- `setByPath(obj, dotted_path, value)` from the settings utilities. -/
def setByPath (fs : JFields) (dotted_path : String) (v : JVal) : JFields :=
  setByPathParts fs (split_path dotted_path) v

/-- `deleteByPath` on an already-split path: walk without creating
intermediates; a non-object intermediate makes the whole call a no-op. -/
def deleteByPathParts : JFields → List String → JFields
  | fs, [] => fs
  | fs, [k] => objDel fs k
  | fs, k :: k2 :: rest =>
    match objGet fs k with
    | some (.vobj cs) => objSet fs k (.vobj (deleteByPathParts cs (k2 :: rest)))
    | _ => fs

/-- `deleteByPath(obj, dotted_path)` from the settings utilities. -/
def deleteByPath (fs : JFields) (dotted_path : String) : JFields :=
  deleteByPathParts fs (split_path dotted_path)

/-- `deepMerge(base, patch)` from the settings utilities, on the field lists
of the two objects: iterate the patch entries in order; when both the current
slot and the patch value are plain objects merge recursively, otherwise the
patch value replaces the slot.  The source deep-clones `base`, `patch` and
each stored value; `deep_clone` is the identity here (`deep_clone_eq`), so
the clones are elided. -/
def deepMerge : JFields → JFields → JFields
  | base, .fnil => base
  | base, .fcons k (.vobj ps) rest =>
    (match objGet base k with
     | some (.vobj bs) => deepMerge (objSet base k (.vobj (deepMerge bs ps))) rest
     | _ => deepMerge (objSet base k (.vobj ps)) rest)
  | base, .fcons k v rest => deepMerge (objSet base k v) rest

/-- `maskSensitive`'s per-path step: skip undefined/null, empty string and
empty array values; otherwise write the sentinel at the path and record the
path in the masked map. -/
def maskable : Option JVal → Bool
  | none => false
  | some .vnull => false
  | some (.vstr s) => !(s == "")
  | some (.varr .anil) => false
  | some _ => true

/-- One iteration of `maskSensitive`'s loop over the sensitive paths.  The
masked map (a JavaScript object keyed by path with value `true`) is modelled
as the insertion-ordered list of its keys. -/
def mask_step (st : JFields × List String) (p : String) : JFields × List String :=
  if maskable (getByPathParts (some (.vobj st.1)) (split_path p)) then
    (setByPathParts st.1 (split_path p) (.vstr MASK_SENTINEL),
     if p ∈ st.2 then st.2 else st.2 ++ [p])
  else st

/-- `maskSensitive(settings, sensitive_paths)` from the settings utilities:
returns the masked settings object and the masked map. -/
def maskSensitive (settings : JFields) (sensitive_paths : List String) :
    JFields × List String :=
  sensitive_paths.foldl mask_step (settings, [])

/-- `applyPatchWithMaskHandling`'s per-path sanitisation step: when the patch
holds exactly the sentinel string at a sensitive path, substitute the
existing value there, or delete the path when no existing value is present. -/
def apply_mask_step (existing : JFields) (pc : JFields) (p : String) : JFields :=
  match getByPathParts (some (.vobj pc)) (split_path p) with
  | some (.vstr s) =>
    if s = MASK_SENTINEL then
      match getByPathParts (some (.vobj existing)) (split_path p) with
      | some original => setByPathParts pc (split_path p) original
      | none => deleteByPathParts pc (split_path p)
    else pc
  | _ => pc

/-- `applyPatchWithMaskHandling(existing, patch, sensitive_paths)` from the
settings utilities: sanitise the patch against the sentinel, then deep-merge
it onto the existing document. -/
def applyPatchWithMaskHandling (existing patch : JFields)
    (sensitive_paths : List String) : JFields :=
  deepMerge existing (sensitive_paths.foldl (apply_mask_step existing) patch)

/-- The value `deepMerge` stores for one patch entry: the recursive merge
when both the current slot and the patch value are plain objects, otherwise
the patch value itself. -/
def mergeSlot (cur : Option JVal) (v : JVal) : JVal :=
  match cur, v with
  | some (.vobj bs), .vobj ps => .vobj (deepMerge bs ps)
  | _, _ => v

/-- The merge result at one key, as the spec describes `deep_merge`: a key
present in the patch maps to the recursive merge when both sides are nested
objects and to the (deep-cloned = identical) patch value otherwise; a key
absent from the patch keeps the base value. -/
def deepMerge_spec_at (base patch : JFields) (k : String) : Option JVal :=
  match objGet patch k with
  | none => objGet base k
  | some v => some (mergeSlot (objGet base k) v)

/- Scenario B evaluates definitionally. -/
example :
    deepMerge
      (.fcons "a" (.vobj (.fcons "x" (.vnum 1) (.fcons "y" (.vnum 2) .fnil))) .fnil)
      (.fcons "a" (.vobj (.fcons "y" (.vnum 3) (.fcons "z" (.vnum 4) .fnil))) .fnil)
    = .fcons "a" (.vobj (.fcons "x" (.vnum 1)
        (.fcons "y" (.vnum 3) (.fcons "z" (.vnum 4) .fnil)))) .fnil := rfl

example :
    maskSensitive (.fcons "token" (.vstr "abc123") .fnil) ["token"]
    = (.fcons "token" (.vstr MASK_SENTINEL) .fnil, ["token"]) := rfl

example :
    applyPatchWithMaskHandling
      (.fcons "token" (.vstr "abc123") .fnil)
      (.fcons "token" (.vstr MASK_SENTINEL) .fnil) ["token"]
    = .fcons "token" (.vstr "abc123") .fnil := rfl

/-- Segment-list order: `segLe P Q` holds when the path `P` is an initial
segment of the path `Q`. -/
def segLe : List String → List String → Bool
  | [], _ => true
  | _ :: _, [] => false
  | a :: as, b :: bs => a == b && segLe as bs

/-- Two dotted paths overlap when either's segment list is an initial
segment of the other's (in particular when they are equal). -/
def pathsOverlap (P Q : List String) : Bool := segLe P Q || segLe Q P

theorem pathsOverlap_false {P Q : List String}
    (h : pathsOverlap P Q = false) : segLe P Q = false ∧ segLe Q P = false := by
  simpa [pathsOverlap, Bool.or_eq_false_iff] using h

/-- Induction along the binding spine of an object (the value components
are not part of the recursion, so a single motive suffices even though
`JFields` lives in a mutual inductive family). -/
@[induction_eliminator]
theorem jfields_ind {motive : JFields → Prop} (fnil : motive .fnil)
    (fcons : ∀ (k : String) (v : JVal) (rest : JFields),
      motive rest → motive (.fcons k v rest)) :
    ∀ fs, motive fs
  | .fnil => fnil
  | .fcons k v rest => fcons k v rest (jfields_ind fnil fcons rest)

/-! Basic lemmas about the object-map operations. -/

theorem objGet_objSet (fs : JFields) (k k' : String) (v : JVal) :
    objGet (objSet fs k v) k' = if k = k' then some v else objGet fs k' := by
  induction fs with
  | fnil => simp [objSet, objGet]
  | fcons k0 v0 rest ih =>
    by_cases h0 : k0 = k
    · subst h0
      simp only [objSet, if_pos rfl, objGet]
      by_cases h' : k0 = k' <;> simp [h']
    · simp only [objSet, if_neg h0, objGet]
      by_cases h' : k0 = k'
      · subst h'
        have hk : ¬ k = k0 := fun h => h0 h.symm
        simp [hk]
      · simp [h', ih]

theorem objGet_objSet_self (fs : JFields) (k : String) (v : JVal) :
    objGet (objSet fs k v) k = some v := by
  simp [objGet_objSet]

theorem objGet_objSet_ne (fs : JFields) {k k' : String} (v : JVal)
    (h : k ≠ k') : objGet (objSet fs k v) k' = objGet fs k' := by
  simp [objGet_objSet, h]

theorem objGet_objDel_ne (fs : JFields) {k k' : String}
    (h : k ≠ k') : objGet (objDel fs k) k' = objGet fs k' := by
  induction fs with
  | fnil => simp [objDel, objGet]
  | fcons k0 v0 rest ih =>
    by_cases h0 : k0 = k
    · subst h0
      have hk : ¬ k0 = k' := fun hh => h hh
      simp [objDel, objGet, hk]
    · simp only [objDel, if_neg h0]
      by_cases h' : k0 = k' <;> simp [objGet, h', ih]

theorem objGet_eq_none_of_hasKey_false {fs : JFields} {k : String}
    (h : objHasKey fs k = false) : objGet fs k = none := by
  induction fs with
  | fnil => rfl
  | fcons k0 v0 rest ih =>
    simp only [objHasKey, Bool.or_eq_false_iff, beq_eq_false_iff_ne, ne_eq] at h
    simp [objGet, h.1, ih h.2]

theorem objSet_same {fs : JFields} {k : String} {v : JVal}
    (h : objGet fs k = some v) : objSet fs k v = fs := by
  induction fs with
  | fnil => simp [objGet] at h
  | fcons k0 v0 rest ih =>
    by_cases h0 : k0 = k
    · subst h0
      have h2 : v0 = v := by simpa [objGet] using h
      subst h2
      simp [objSet]
    · simp only [objGet, if_neg h0] at h
      simp [objSet, h0, ih h]

theorem objHasKey_objSet (fs : JFields) (k k' : String) (v : JVal) :
    objHasKey (objSet fs k v) k' = (objHasKey fs k' || k == k') := by
  induction fs with
  | fnil => simp [objSet, objHasKey]
  | fcons k0 v0 rest ih =>
    by_cases h0 : k0 = k
    · subst h0
      simp only [objSet, if_pos rfl, objHasKey]
      by_cases h' : k0 = k' <;>
        cases hk : objHasKey rest k' <;> simp [h', hk]
    · simp [objSet, h0, objHasKey, ih, Bool.or_assoc]

theorem keysNodup_objSet {fs : JFields} (k : String) (v : JVal)
    (h : keysNodup fs = true) : keysNodup (objSet fs k v) = true := by
  induction fs with
  | fnil => simp [objSet, keysNodup, objHasKey]
  | fcons k0 v0 rest ih =>
    simp only [keysNodup, Bool.and_eq_true, Bool.not_eq_true'] at h
    by_cases h0 : k0 = k
    · subst h0
      simp [objSet, keysNodup, h.1, h.2]
    · have : objHasKey (objSet rest k v) k0 = false := by
        have hne : (k == k0) = false := by
          simp [beq_eq_false_iff_ne]
          exact fun hh => h0 hh.symm
        simp [objHasKey_objSet, h.1, hne]
      simp [objSet, h0, keysNodup, this, ih h.2]

theorem objHasKey_objDel_imp {fs : JFields} {k k' : String}
    (h : objHasKey (objDel fs k) k' = true) : objHasKey fs k' = true := by
  induction fs with
  | fnil => simpa [objDel] using h
  | fcons k0 v0 rest ih =>
    by_cases h0 : k0 = k
    · subst h0
      simp only [objDel, if_pos] at h
      simp [objHasKey, h]
    · simp only [objDel, if_neg h0, objHasKey, Bool.or_eq_true] at h ⊢
      rcases h with h | h
      · exact Or.inl h
      · exact Or.inr (ih h)

theorem keysNodup_objDel {fs : JFields} (k : String)
    (h : keysNodup fs = true) : keysNodup (objDel fs k) = true := by
  induction fs with
  | fnil => simpa [objDel] using h
  | fcons k0 v0 rest ih =>
    simp only [keysNodup, Bool.and_eq_true, Bool.not_eq_true'] at h
    by_cases h0 : k0 = k
    · subst h0; simp [objDel, h.2]
    · have : objHasKey (objDel rest k) k0 = false := by
        cases hh : objHasKey (objDel rest k) k0 with
        | false => rfl
        | true => rw [objHasKey_objDel_imp hh] at h; exact absurd h.1 (by simp)
      simp [objDel, h0, keysNodup, this, ih h.2]

/-! Well-formedness lemmas. -/

theorem wf_vobj (fs : JFields) :
    wf (.vobj fs) = (keysNodup fs && wfFields fs) := rfl

theorem wf_of_objGet {fs : JFields} {k : String} {v : JVal}
    (hwf : wfFields fs = true) (h : objGet fs k = some v) : wf v = true := by
  induction fs with
  | fnil => simp [objGet] at h
  | fcons k0 v0 rest ih =>
    simp only [wfFields, Bool.and_eq_true] at hwf
    by_cases h0 : k0 = k
    · subst h0
      have h2 : v0 = v := by simpa [objGet] using h
      subst h2; exact hwf.1
    · simp only [objGet, if_neg h0] at h
      exact ih hwf.2 h

theorem wfFields_objSet {fs : JFields} {k : String} {v : JVal}
    (hwf : wfFields fs = true) (hv : wf v = true) :
    wfFields (objSet fs k v) = true := by
  induction fs with
  | fnil => simp [objSet, wfFields, hv]
  | fcons k0 v0 rest ih =>
    simp only [wfFields, Bool.and_eq_true] at hwf
    by_cases h0 : k0 = k
    · subst h0; simp [objSet, wfFields, hv, hwf.2]
    · simp [objSet, h0, wfFields, hwf.1, ih hwf.2]

theorem wf_vobj_objSet {fs : JFields} {k : String} {v : JVal}
    (hwf : wf (.vobj fs) = true) (hv : wf v = true) :
    wf (.vobj (objSet fs k v)) = true := by
  simp only [wf_vobj, Bool.and_eq_true] at hwf ⊢
  exact ⟨keysNodup_objSet k v hwf.1, wfFields_objSet hwf.2 hv⟩

theorem wfFields_objDel {fs : JFields} (k : String)
    (hwf : wfFields fs = true) : wfFields (objDel fs k) = true := by
  induction fs with
  | fnil => simpa [objDel] using hwf
  | fcons k0 v0 rest ih =>
    simp only [wfFields, Bool.and_eq_true] at hwf
    by_cases h0 : k0 = k
    · subst h0; simp [objDel, hwf.2]
    · simp [objDel, h0, wfFields, hwf.1, ih hwf.2]

theorem wf_vobj_objDel {fs : JFields} (k : String)
    (hwf : wf (.vobj fs) = true) : wf (.vobj (objDel fs k)) = true := by
  simp only [wf_vobj, Bool.and_eq_true] at hwf ⊢
  exact ⟨keysNodup_objDel k hwf.1, wfFields_objDel k hwf.2⟩

/-! Lemmas about dotted-path navigation. -/

theorem getByPathParts_none :
    ∀ (parts : List String), getByPathParts none parts = none
  | [] => rfl
  | _ :: rest => by simp [getByPathParts, getStep, getByPathParts_none rest]

theorem setByPathParts_get_self (v : JVal) :
    ∀ (parts : List String) (fs : JFields), parts ≠ [] →
    getByPathParts (some (.vobj (setByPathParts fs parts v))) parts = some v := by
  intro parts
  induction parts with
  | nil => intro fs h; exact absurd rfl h
  | cons k rest ih =>
    intro fs _
    cases rest with
    | nil => simp [setByPathParts, getByPathParts, getStep, objGet_objSet_self]
    | cons k2 rest' =>
      have step :
          getByPathParts (some (.vobj (setByPathParts fs (k :: k2 :: rest') v)))
            (k :: k2 :: rest')
          = getByPathParts
              (some (.vobj (setByPathParts (childFields fs k) (k2 :: rest') v)))
              (k2 :: rest') := by
        simp [setByPathParts, getByPathParts, getStep, objGet_objSet_self]
      rw [step]
      exact ih _ (by simp)

theorem setByPathParts_objGet_ne (fs : JFields) (p0 : String) (tl : List String)
    (v : JVal) {q : String} (h : p0 ≠ q) :
    objGet (setByPathParts fs (p0 :: tl) v) q = objGet fs q := by
  cases tl with
  | nil => simp [setByPathParts, objGet_objSet_ne _ _ h]
  | cons p1 tl' => simp [setByPathParts, objGet_objSet_ne _ _ h]

theorem deleteByPathParts_objGet_ne (fs : JFields) (p0 : String)
    (tl : List String) {q : String} (h : p0 ≠ q) :
    objGet (deleteByPathParts fs (p0 :: tl)) q = objGet fs q := by
  cases tl with
  | nil => simp [deleteByPathParts, objGet_objDel_ne _ h]
  | cons p1 tl' =>
    cases hg : objGet fs p0 with
    | none => simp [deleteByPathParts, hg]
    | some w =>
      cases w with
      | vobj cs => simp [deleteByPathParts, hg, objGet_objSet_ne _ _ h]
      | vnull => simp [deleteByPathParts, hg]
      | vbool b => simp [deleteByPathParts, hg]
      | vnum n => simp [deleteByPathParts, hg]
      | vstr s => simp [deleteByPathParts, hg]
      | varr xs => simp [deleteByPathParts, hg]

/-- Writing at a path leaves reads at any non-overlapping path unchanged. -/
theorem getByPathParts_set_sep (v : JVal) :
    ∀ (P : List String) (fs : JFields) (Q : List String),
    segLe P Q = false → segLe Q P = false →
    getByPathParts (some (.vobj (setByPathParts fs P v))) Q
      = getByPathParts (some (.vobj fs)) Q := by
  intro P
  induction P with
  | nil => intro fs Q hPQ hQP; simp [segLe] at hPQ
  | cons p0 P' ih =>
    intro fs Q hPQ hQP
    cases Q with
    | nil => simp [segLe] at hQP
    | cons q0 Q' =>
      by_cases hpq : p0 = q0
      · subst hpq
        have hPQ' : segLe P' Q' = false := by simpa [segLe] using hPQ
        have hQP' : segLe Q' P' = false := by simpa [segLe] using hQP
        cases P' with
        | nil => simp [segLe] at hPQ'
        | cons p1 P'' =>
          cases Q' with
          | nil => simp [segLe] at hQP'
          | cons q1 Q'' =>
            have step :
                getByPathParts
                  (some (.vobj (setByPathParts fs (p0 :: p1 :: P'') v)))
                  (p0 :: q1 :: Q'')
                = getByPathParts
                    (some (.vobj (setByPathParts (childFields fs p0) (p1 :: P'') v)))
                    (q1 :: Q'') := by
              simp [setByPathParts, getByPathParts, getStep, objGet_objSet_self]
            rw [step, ih (childFields fs p0) (q1 :: Q'') hPQ' hQP']
            cases hg : objGet fs p0 with
            | none =>
              simp [childFields, hg, getByPathParts, getStep, objGet,
                getByPathParts_none]
            | some w =>
              cases w with
              | vobj cs => simp [childFields, hg, getByPathParts, getStep]
              | vnull =>
                simp [childFields, hg, getByPathParts, getStep, objGet,
                  getByPathParts_none]
              | vbool b =>
                simp [childFields, hg, getByPathParts, getStep, objGet,
                  getByPathParts_none]
              | vnum n =>
                simp [childFields, hg, getByPathParts, getStep, objGet,
                  getByPathParts_none]
              | vstr s =>
                simp [childFields, hg, getByPathParts, getStep, objGet,
                  getByPathParts_none]
              | varr xs =>
                simp [childFields, hg, getByPathParts, getStep, objGet,
                  getByPathParts_none]
      · have hget : objGet (setByPathParts fs (p0 :: P') v) q0 = objGet fs q0 :=
          setByPathParts_objGet_ne fs p0 P' v hpq
        simp [getByPathParts, getStep, hget]

/-- Deleting at a path leaves reads at any non-overlapping path unchanged. -/
theorem getByPathParts_del_sep :
    ∀ (P : List String) (fs : JFields) (Q : List String),
    segLe P Q = false → segLe Q P = false →
    getByPathParts (some (.vobj (deleteByPathParts fs P))) Q
      = getByPathParts (some (.vobj fs)) Q := by
  intro P
  induction P with
  | nil => intro fs Q hPQ hQP; simp [segLe] at hPQ
  | cons p0 P' ih =>
    intro fs Q hPQ hQP
    cases Q with
    | nil => simp [segLe] at hQP
    | cons q0 Q' =>
      by_cases hpq : p0 = q0
      · subst hpq
        have hPQ' : segLe P' Q' = false := by simpa [segLe] using hPQ
        have hQP' : segLe Q' P' = false := by simpa [segLe] using hQP
        cases P' with
        | nil => simp [segLe] at hPQ'
        | cons p1 P'' =>
          cases Q' with
          | nil => simp [segLe] at hQP'
          | cons q1 Q'' =>
            cases hg : objGet fs p0 with
            | none => simp [deleteByPathParts, hg]
            | some w =>
              cases w with
              | vobj cs =>
                have step :
                    getByPathParts
                      (some (.vobj (deleteByPathParts fs (p0 :: p1 :: P''))))
                      (p0 :: q1 :: Q'')
                    = getByPathParts
                        (some (.vobj (deleteByPathParts cs (p1 :: P''))))
                        (q1 :: Q'') := by
                  simp [deleteByPathParts, hg, getByPathParts, getStep,
                    objGet_objSet_self]
                rw [step, ih cs (q1 :: Q'') hPQ' hQP']
                simp [getByPathParts, getStep, hg]
              | vnull => simp [deleteByPathParts, hg]
              | vbool b => simp [deleteByPathParts, hg]
              | vnum n => simp [deleteByPathParts, hg]
              | vstr s => simp [deleteByPathParts, hg]
              | varr xs => simp [deleteByPathParts, hg]
      · have hget : objGet (deleteByPathParts fs (p0 :: P')) q0 = objGet fs q0 :=
          deleteByPathParts_objGet_ne fs p0 P' hpq
        simp [getByPathParts, getStep, hget]

theorem wf_setByPathParts {v : JVal} (hv : wf v = true) :
    ∀ (parts : List String) (fs : JFields), wf (.vobj fs) = true →
    wf (.vobj (setByPathParts fs parts v)) = true := by
  intro parts
  induction parts with
  | nil => intro fs h; simpa [setByPathParts] using h
  | cons k rest ih =>
    intro fs h
    cases rest with
    | nil => simpa [setByPathParts] using wf_vobj_objSet h hv
    | cons k2 rest' =>
      have hfields : wfFields fs = true := by
        have hh := h; rw [wf_vobj, Bool.and_eq_true] at hh; exact hh.2
      have hchild : wf (.vobj (childFields fs k)) = true := by
        cases hg : objGet fs k with
        | none => simp [childFields, hg, wf, keysNodup, wfFields]
        | some w =>
          cases w with
          | vobj cs => simpa [childFields, hg] using wf_of_objGet hfields hg
          | vnull => simp [childFields, hg, wf, keysNodup, wfFields]
          | vbool b => simp [childFields, hg, wf, keysNodup, wfFields]
          | vnum n => simp [childFields, hg, wf, keysNodup, wfFields]
          | vstr s => simp [childFields, hg, wf, keysNodup, wfFields]
          | varr xs => simp [childFields, hg, wf, keysNodup, wfFields]
      have hin : wf (.vobj (setByPathParts (childFields fs k) (k2 :: rest') v)) = true :=
        ih _ hchild
      simpa [setByPathParts] using wf_vobj_objSet h hin

theorem wf_deleteByPathParts :
    ∀ (parts : List String) (fs : JFields), wf (.vobj fs) = true →
    wf (.vobj (deleteByPathParts fs parts)) = true := by
  intro parts
  induction parts with
  | nil => intro fs h; simpa [deleteByPathParts] using h
  | cons k rest ih =>
    intro fs h
    cases rest with
    | nil => simpa [deleteByPathParts] using wf_vobj_objDel k h
    | cons k2 rest' =>
      cases hg : objGet fs k with
      | none => simpa [deleteByPathParts, hg] using h
      | some w =>
        cases w with
        | vobj cs =>
          have hcs : wf (.vobj cs) = true := by
            have hh := h; rw [wf_vobj, Bool.and_eq_true] at hh
            simpa using wf_of_objGet hh.2 hg
          have hin := ih cs hcs
          simpa [deleteByPathParts, hg] using wf_vobj_objSet h hin
        | vnull => simpa [deleteByPathParts, hg] using h
        | vbool b => simpa [deleteByPathParts, hg] using h
        | vnum n => simpa [deleteByPathParts, hg] using h
        | vstr s => simpa [deleteByPathParts, hg] using h
        | varr xs => simpa [deleteByPathParts, hg] using h

theorem wf_getByPathParts :
    ∀ (parts : List String) (v : JVal), wf v = true →
    ∀ {w : JVal}, getByPathParts (some v) parts = some w → wf w = true := by
  intro parts
  induction parts with
  | nil =>
    intro v hv w h
    have : v = w := by simpa [getByPathParts] using h
    subst this; exact hv
  | cons k rest ih =>
    intro v hv w h
    cases v with
    | vobj fs =>
      cases hg : objGet fs k with
      | none => simp [getByPathParts, getStep, hg, getByPathParts_none] at h
      | some u =>
        have hfields : wfFields fs = true := by
          have hh := hv; rw [wf_vobj, Bool.and_eq_true] at hh; exact hh.2
        have hu : wf u = true := wf_of_objGet hfields hg
        apply ih u hu
        simpa [getByPathParts, getStep, hg] using h
    | vnull => simp [getByPathParts, getStep, getByPathParts_none] at h
    | vbool b => simp [getByPathParts, getStep, getByPathParts_none] at h
    | vnum n => simp [getByPathParts, getStep, getByPathParts_none] at h
    | vstr s => simp [getByPathParts, getStep, getByPathParts_none] at h
    | varr xs => simp [getByPathParts, getStep, getByPathParts_none] at h

theorem getByPathParts_cons_obj {fs : JFields} {k k1 : String}
    {rest : List String} {w : JVal}
    (h : getByPathParts (objGet fs k) (k1 :: rest) = some w) :
    ∃ cs, objGet fs k = some (.vobj cs)
      ∧ getByPathParts (some (.vobj cs)) (k1 :: rest) = some w := by
  cases hg : objGet fs k with
  | none => rw [hg, getByPathParts_none] at h; cases h
  | some u =>
    cases u
    case vobj cs => exact ⟨cs, rfl, by rw [hg] at h; exact h⟩
    all_goals (rw [hg] at h; simp [getByPathParts, getStep, getByPathParts_none] at h)

/-! Lemmas about `deepMerge`. -/

theorem deepMerge_fnil (base : JFields) : deepMerge base .fnil = base := rfl

theorem deepMerge_cons_step (base : JFields) (k : String) (v : JVal)
    (rest : JFields) :
    deepMerge base (.fcons k v rest)
      = deepMerge (objSet base k (mergeSlot (objGet base k) v)) rest := by
  cases v <;>
    (cases hg : objGet base k with
     | none => simp [deepMerge, mergeSlot, hg]
     | some w => cases w <;> simp [deepMerge, mergeSlot, hg])

theorem deepMerge_objGet :
    ∀ (patch base : JFields) (k : String), keysNodup patch = true →
    objGet (deepMerge base patch) k = deepMerge_spec_at base patch k := by
  intro patch
  induction patch with
  | fnil => intro base k _; simp [deepMerge, deepMerge_spec_at, objGet]
  | fcons k0 v0 rest ih =>
    intro base k hnd
    have hnd' : objHasKey rest k0 = false ∧ keysNodup rest = true := by
      simpa [keysNodup, Bool.and_eq_true, Bool.not_eq_true'] using hnd
    rw [deepMerge_cons_step, ih _ k hnd'.2]
    by_cases hk : k0 = k
    · subst hk
      have hrest : objGet rest k0 = none :=
        objGet_eq_none_of_hasKey_false hnd'.1
      simp [deepMerge_spec_at, hrest, objGet, objGet_objSet_self]
    · have hpk : objGet (.fcons k0 v0 rest) k = objGet rest k := by
        simp [objGet, hk]
      simp only [deepMerge_spec_at, hpk]
      cases objGet rest k <;> simp [objGet_objSet_ne _ _ hk]

theorem deepMerge_absorb :
    ∀ (n : Nat) (patch : JFields), sizeOf patch ≤ n → ∀ (base : JFields),
    keysNodup patch = true → wfFields patch = true →
    (∀ k v, objGet patch k = some v → objGet base k = some v) →
    deepMerge base patch = base := by
  intro n
  induction n with
  | zero =>
    intro patch hsz base _ _ _
    cases patch with
    | fnil => rfl
    | fcons k0 v0 rest => simp at hsz
  | succ n ihn =>
    intro patch hsz base hnd hwf hsub
    cases patch with
    | fnil => rfl
    | fcons k0 v0 rest =>
      have hnd' : objHasKey rest k0 = false ∧ keysNodup rest = true := by
        simpa [keysNodup, Bool.and_eq_true, Bool.not_eq_true'] using hnd
      have hwf' : wf v0 = true ∧ wfFields rest = true := by
        simpa [wfFields, Bool.and_eq_true] using hwf
      have hbase0 : objGet base k0 = some v0 :=
        hsub k0 v0 (by simp [objGet])
      have hszc : 1 + sizeOf k0 + sizeOf v0 + sizeOf rest ≤ n + 1 := by
        simpa using hsz
      rw [deepMerge_cons_step]
      have hms : mergeSlot (objGet base k0) v0 = v0 := by
        rw [hbase0]
        cases v0 with
        | vobj ps =>
          have hwps : keysNodup ps = true ∧ wfFields ps = true := by
            have := hwf'.1
            simpa [wf, Bool.and_eq_true] using this
          have hps : deepMerge ps ps = ps := by
            apply ihn ps ?_ ps hwps.1 hwps.2 (fun _ _ hv => hv)
            have : sizeOf (JVal.vobj ps) = 1 + sizeOf ps := by simp
            omega
          simp [mergeSlot, hps]
        | vnull => simp [mergeSlot]
        | vbool b => simp [mergeSlot]
        | vnum m => simp [mergeSlot]
        | vstr s => simp [mergeSlot]
        | varr xs => simp [mergeSlot]
      rw [hms, objSet_same hbase0]
      apply ihn rest (by omega) base hnd'.2 hwf'.2
      intro k v h
      have hk : ¬ k0 = k := by
        intro he; subst he
        rw [objGet_eq_none_of_hasKey_false hnd'.1] at h; cases h
      exact hsub k v (by simp [objGet, hk, h])

theorem deepMerge_self {fs : JFields} (h : wf (.vobj fs) = true) :
    deepMerge fs fs = fs := by
  have hh := h; rw [wf_vobj, Bool.and_eq_true] at hh
  exact deepMerge_absorb (sizeOf fs) fs le_rfl fs hh.1 hh.2 (fun _ _ hv => hv)

/-- When the existing document and the (sanitised) patch agree on the value
at a path, the deep merge reproduces exactly that value there. -/
theorem deepMerge_getByPathParts :
    ∀ (P : List String) (existing pc : JFields) (w : JVal), P ≠ [] →
    wf (.vobj pc) = true →
    getByPathParts (some (.vobj existing)) P = some w →
    getByPathParts (some (.vobj pc)) P = some w →
    getByPathParts (some (.vobj (deepMerge existing pc))) P = some w := by
  intro P
  induction P with
  | nil => intro _ _ _ h _ _ _; exact absurd rfl h
  | cons k rest ih =>
    intro existing pc w _ hwf he hc
    have hwf2 := hwf; rw [wf_vobj, Bool.and_eq_true] at hwf2
    cases rest with
    | nil =>
      simp only [getByPathParts, getStep] at he hc ⊢
      rw [deepMerge_objGet pc existing k hwf2.1]
      simp only [deepMerge_spec_at, hc, he]
      cases w with
      | vobj ws =>
        have hws : wf (.vobj ws) = true := wf_of_objGet hwf2.2 hc
        simp [mergeSlot, deepMerge_self hws]
      | vnull => simp [mergeSlot]
      | vbool b => simp [mergeSlot]
      | vnum m => simp [mergeSlot]
      | vstr s => simp [mergeSlot]
      | varr xs => simp [mergeSlot]
    | cons k1 rest' =>
      simp only [getByPathParts, getStep] at he hc ⊢
      obtain ⟨es, hes, he'⟩ := getByPathParts_cons_obj he
      obtain ⟨cs, hcs, hc'⟩ := getByPathParts_cons_obj hc
      have hwcs : wf (.vobj cs) = true := wf_of_objGet hwf2.2 hcs
      have hmid : objGet (deepMerge existing pc) k
          = some (.vobj (deepMerge es cs)) := by
        rw [deepMerge_objGet pc existing k hwf2.1]
        simp [deepMerge_spec_at, hcs, hes, mergeSlot]
      rw [hmid]
      exact ih es cs w (by simp) hwcs he' hc'

/-! Lemmas about the masking fold. -/

theorem mask_fold_sep (p : String) :
    ∀ (paths : List String) (acc : JFields) (m : List String),
    (∀ q ∈ paths, pathsOverlap (split_path p) (split_path q) = false) →
    getByPathParts (some (.vobj (paths.foldl mask_step (acc, m)).1)) (split_path p)
      = getByPathParts (some (.vobj acc)) (split_path p)
    ∧ (p ∈ m → p ∈ (paths.foldl mask_step (acc, m)).2) := by
  intro paths
  induction paths with
  | nil => intro acc m _; exact ⟨rfl, fun h => h⟩
  | cons q rest ih =>
    intro acc m hsep
    have hq := pathsOverlap_false (hsep q (by simp))
    have hrest : ∀ r ∈ rest, pathsOverlap (split_path p) (split_path r) = false :=
      fun r hr => hsep r (List.mem_cons_of_mem _ hr)
    rw [List.foldl_cons]
    by_cases hm : maskable (getByPathParts (some (.vobj acc)) (split_path q)) = true
    · rw [show mask_step (acc, m) q
          = (setByPathParts acc (split_path q) (.vstr MASK_SENTINEL),
             if q ∈ m then m else m ++ [q]) from by simp [mask_step, hm]]
      obtain ⟨ha, hb⟩ := ih _ _ hrest
      refine ⟨ha.trans (getByPathParts_set_sep _ _ _ _ hq.2 hq.1), fun hp => ?_⟩
      exact hb (by by_cases hqm : q ∈ m <;> simp [hqm, hp])
    · rw [show mask_step (acc, m) q = (acc, m) from by simp [mask_step, hm]]
      exact ih _ _ hrest

theorem mask_fold_main :
    ∀ (paths : List String) (acc : JFields) (m : List String) (p : String),
    paths.Pairwise (fun a b => pathsOverlap (split_path a) (split_path b) = false) →
    p ∈ paths → split_path p ≠ [] →
    maskable (getByPathParts (some (.vobj acc)) (split_path p)) = true →
    getByPathParts (some (.vobj (paths.foldl mask_step (acc, m)).1)) (split_path p)
      = some (.vstr MASK_SENTINEL)
    ∧ p ∈ (paths.foldl mask_step (acc, m)).2 := by
  intro paths
  induction paths with
  | nil => intro acc m p _ hp; cases hp
  | cons q rest ih =>
    intro acc m p hPW hp hne hval
    rw [List.pairwise_cons] at hPW
    rw [List.foldl_cons]
    rcases List.mem_cons.mp hp with hpq | hpr
    · subst hpq
      rw [show mask_step (acc, m) p
          = (setByPathParts acc (split_path p) (.vstr MASK_SENTINEL),
             if p ∈ m then m else m ++ [p]) from by simp [mask_step, hval]]
      obtain ⟨ha, hb⟩ := mask_fold_sep p rest _ _ hPW.1
      constructor
      · rw [ha]; exact setByPathParts_get_self _ _ _ hne
      · exact hb (by by_cases hqm : p ∈ m <;> simp [hqm])
    · have hqp := pathsOverlap_false (hPW.1 p hpr)
      by_cases hm : maskable (getByPathParts (some (.vobj acc)) (split_path q)) = true
      · rw [show mask_step (acc, m) q
            = (setByPathParts acc (split_path q) (.vstr MASK_SENTINEL),
               if q ∈ m then m else m ++ [q]) from by simp [mask_step, hm]]
        apply ih _ _ p hPW.2 hpr hne
        rw [getByPathParts_set_sep _ _ _ _ hqp.1 hqp.2]
        exact hval
      · rw [show mask_step (acc, m) q = (acc, m) from by simp [mask_step, hm]]
        exact ih _ _ p hPW.2 hpr hne hval

/-- One sanitisation step at a non-overlapping path does not change the
patch's value at `p`. -/
theorem apply_step_sep (existing pc : JFields) (q p : String)
    (h1 : segLe (split_path q) (split_path p) = false)
    (h2 : segLe (split_path p) (split_path q) = false) :
    getByPathParts (some (.vobj (apply_mask_step existing pc q))) (split_path p)
      = getByPathParts (some (.vobj pc)) (split_path p) := by
  unfold apply_mask_step
  cases hg : getByPathParts (some (.vobj pc)) (split_path q) with
  | none => rfl
  | some u =>
    cases u with
    | vstr s =>
      by_cases hs : s = MASK_SENTINEL
      · cases hex : getByPathParts (some (.vobj existing)) (split_path q) with
        | some orig =>
          simp only [hs, if_pos, hex]
          exact getByPathParts_set_sep _ _ _ _ h1 h2
        | none =>
          simp only [hs, if_pos, hex]
          exact getByPathParts_del_sep _ _ _ h1 h2
      · simp [hs]
    | vnull => rfl
    | vbool b => rfl
    | vnum n => rfl
    | varr xs => rfl
    | vobj fs2 => rfl

theorem apply_fold_sep (existing : JFields) (p : String) :
    ∀ (paths : List String) (pc : JFields),
    (∀ q ∈ paths, pathsOverlap (split_path p) (split_path q) = false) →
    getByPathParts
      (some (.vobj (paths.foldl (apply_mask_step existing) pc))) (split_path p)
      = getByPathParts (some (.vobj pc)) (split_path p) := by
  intro paths
  induction paths with
  | nil => intro pc _; rfl
  | cons q rest ih =>
    intro pc hsep
    have hq := pathsOverlap_false (hsep q (by simp))
    have hrest : ∀ r ∈ rest, pathsOverlap (split_path p) (split_path r) = false :=
      fun r hr => hsep r (List.mem_cons_of_mem _ hr)
    rw [List.foldl_cons, ih _ hrest]
    exact apply_step_sep existing pc q p hq.2 hq.1

theorem apply_fold_main (existing : JFields) :
    ∀ (paths : List String) (pc : JFields) (p : String) (w : JVal),
    paths.Pairwise (fun a b => pathsOverlap (split_path a) (split_path b) = false) →
    p ∈ paths → split_path p ≠ [] →
    getByPathParts (some (.vobj pc)) (split_path p) = some (.vstr MASK_SENTINEL) →
    getByPathParts (some (.vobj existing)) (split_path p) = some w →
    getByPathParts
      (some (.vobj (paths.foldl (apply_mask_step existing) pc))) (split_path p)
      = some w := by
  intro paths
  induction paths with
  | nil => intro pc p w _ hp; cases hp
  | cons q rest ih =>
    intro pc p w hPW hp hne hsent hex
    rw [List.pairwise_cons] at hPW
    rw [List.foldl_cons]
    rcases List.mem_cons.mp hp with hpq | hpr
    · subst hpq
      have hstep : apply_mask_step existing pc p = setByPathParts pc (split_path p) w := by
        unfold apply_mask_step
        rw [hsent, hex]
        simp
      rw [hstep, apply_fold_sep existing p rest _ hPW.1]
      exact setByPathParts_get_self _ _ _ hne
    · have hqp := pathsOverlap_false (hPW.1 p hpr)
      apply ih _ p w hPW.2 hpr hne _ hex
      rw [apply_step_sep existing pc q p hqp.1 hqp.2]
      exact hsent

theorem wf_apply_fold (existing : JFields) (hwe : wf (.vobj existing) = true) :
    ∀ (paths : List String) (pc : JFields), wf (.vobj pc) = true →
    wf (.vobj (paths.foldl (apply_mask_step existing) pc)) = true := by
  intro paths
  induction paths with
  | nil => intro pc h; exact h
  | cons q rest ih =>
    intro pc h
    rw [List.foldl_cons]
    apply ih
    unfold apply_mask_step
    cases hg : getByPathParts (some (.vobj pc)) (split_path q) with
    | none => exact h
    | some u =>
      cases u with
      | vstr s =>
        by_cases hs : s = MASK_SENTINEL
        · cases hex : getByPathParts (some (.vobj existing)) (split_path q) with
          | some orig =>
            simp only [hs, if_pos, hex]
            exact wf_setByPathParts (wf_getByPathParts _ _ hwe hex) _ pc h
          | none =>
            simp only [hs, if_pos, hex]
            exact wf_deleteByPathParts _ pc h
        · simp only [hs, if_neg hs]; exact h
      | vnull => exact h
      | vbool b => exact h
      | vnum n => exact h
      | varr xs => exact h
      | vobj fs2 => exact h

/-!
Claim C1 (mask round-trip).  As literally stated — quantifying over every
list of sensitive paths — the claim is false: when one sensitive path is a
dotted prefix of another (for example `"a"` and `"a.b"`), masking the outer
path replaces the whole subtree by the sentinel string, after which the
inner path no longer resolves, is not recorded in the masked map, and does
not hold the sentinel (`claim_C1_counterexample`).  The round trip does hold
once the sensitive paths are pairwise non-overlapping (no path's segment
list is an initial segment of another's) and the path has at least one
segment (`claim_C1`); object well-formedness (distinct keys per level) is
automatic for real JavaScript objects.
-/

/-- C1 (amended): for every settings document and patch, every list of
pairwise non-overlapping sensitive dotted paths, and every sensitive path
with at least one segment whose resolved value is non-empty, `maskSensitive`
replaces that value with the sentinel and records the path in the masked
map; and `applyPatchWithMaskHandling` applied to the document and a patch
still holding the sentinel at that path yields the original value there
unchanged. -/
theorem claim_C1 (doc patch : JFields) (paths : List String) (p : String)
    (hPW : paths.Pairwise
      (fun a b => pathsOverlap (split_path a) (split_path b) = false))
    (hne : split_path p ≠ [])
    (hp : p ∈ paths)
    (hval : maskable (getByPathParts (some (.vobj doc)) (split_path p)) = true)
    (hwfd : wf (.vobj doc) = true)
    (hwfp : wf (.vobj patch) = true)
    (hsent : getByPathParts (some (.vobj patch)) (split_path p)
      = some (.vstr MASK_SENTINEL)) :
    getByPathParts (some (.vobj (maskSensitive doc paths).1)) (split_path p)
      = some (.vstr MASK_SENTINEL)
    ∧ p ∈ (maskSensitive doc paths).2
    ∧ getByPathParts (some (.vobj (applyPatchWithMaskHandling doc patch paths)))
        (split_path p)
      = getByPathParts (some (.vobj doc)) (split_path p) := by
  obtain ⟨hm1, hm2⟩ := mask_fold_main paths doc [] p hPW hp hne hval
  refine ⟨hm1, hm2, ?_⟩
  obtain ⟨w, hw⟩ : ∃ w, getByPathParts (some (.vobj doc)) (split_path p) = some w := by
    cases hg : getByPathParts (some (.vobj doc)) (split_path p) with
    | none => rw [hg] at hval; simp [maskable] at hval
    | some u => exact ⟨u, rfl⟩
  rw [hw]
  have hfold :
      getByPathParts
        (some (.vobj (paths.foldl (apply_mask_step doc) patch))) (split_path p)
      = some w :=
    apply_fold_main doc paths patch p w hPW hp hne hsent hw
  have hwff : wf (.vobj (paths.foldl (apply_mask_step doc) patch)) = true :=
    wf_apply_fold doc hwfd paths patch hwfp
  exact deepMerge_getByPathParts (split_path p) doc
    (paths.foldl (apply_mask_step doc) patch) w hne hwff hw hfold

/-- C1 counterexample: with the document `{a: {b: "x"}}` and sensitive paths
`["a", "a.b"]`, the resolved value of `"a.b"` is the non-empty string `"x"`,
yet `maskSensitive` records only `"a"` in the masked map and leaves nothing
(sentinel included) at `"a.b"` in the masked settings — refuting the claim
as stated for overlapping path lists. -/
theorem claim_C1_counterexample :
    maskable
      (getByPathParts
        (some (.vobj (.fcons "a" (.vobj (.fcons "b" (.vstr "x") .fnil)) .fnil)))
        (split_path "a.b")) = true
    ∧ (maskSensitive
        (.fcons "a" (.vobj (.fcons "b" (.vstr "x") .fnil)) .fnil)
        ["a", "a.b"]).2 = ["a"]
    ∧ getByPathParts
        (some (.vobj (maskSensitive
          (.fcons "a" (.vobj (.fcons "b" (.vstr "x") .fnil)) .fnil)
          ["a", "a.b"]).1))
        (split_path "a.b") = none :=
  ⟨rfl, rfl, rfl⟩

/-- C1 witness: Scenario C instantiated through `claim_C1`. -/
theorem claim_C1_witness :
    getByPathParts
      (some (.vobj (maskSensitive (.fcons "token" (.vstr "abc123") .fnil)
        ["token"]).1)) (split_path "token")
      = some (.vstr MASK_SENTINEL)
    ∧ "token" ∈ (maskSensitive (.fcons "token" (.vstr "abc123") .fnil) ["token"]).2
    ∧ getByPathParts
        (some (.vobj (applyPatchWithMaskHandling
          (.fcons "token" (.vstr "abc123") .fnil)
          (.fcons "token" (.vstr MASK_SENTINEL) .fnil) ["token"])))
        (split_path "token")
      = getByPathParts
          (some (.vobj (.fcons "token" (.vstr "abc123") .fnil)))
          (split_path "token") :=
  claim_C1 (.fcons "token" (.vstr "abc123") .fnil)
    (.fcons "token" (.vstr MASK_SENTINEL) .fnil) ["token"] "token"
    (by simp) (by decide) (by decide) rfl rfl rfl rfl

/-- C9: `deepMerge` satisfies the spec's description key by key — for every
key present in the patch, the result is the recursive merge when both sides
are nested plain objects and the patch value otherwise (arrays and scalars
replace wholly), keys of the base absent from the patch are preserved — and
Scenario B evaluates as specified. -/
theorem claim_C9 (base patch : JFields) (k : String)
    (hnd : keysNodup patch = true) :
    objGet (deepMerge base patch) k = deepMerge_spec_at base patch k
    ∧ deepMerge
        (.fcons "a" (.vobj (.fcons "x" (.vnum 1) (.fcons "y" (.vnum 2) .fnil))) .fnil)
        (.fcons "a" (.vobj (.fcons "y" (.vnum 3) (.fcons "z" (.vnum 4) .fnil))) .fnil)
      = .fcons "a" (.vobj (.fcons "x" (.vnum 1)
          (.fcons "y" (.vnum 3) (.fcons "z" (.vnum 4) .fnil)))) .fnil :=
  ⟨deepMerge_objGet patch base k hnd, rfl⟩

/-- C9 witness: the key-wise description evaluated at a concrete merge. -/
theorem claim_C9_witness :
    keysNodup (.fcons "y" (.vnum 3) .fnil) = true
    ∧ objGet (deepMerge (.fcons "x" (.vnum 1) .fnil) (.fcons "y" (.vnum 3) .fnil)) "x"
        = deepMerge_spec_at (.fcons "x" (.vnum 1) .fnil) (.fcons "y" (.vnum 3) .fnil) "x" :=
  ⟨rfl, (claim_C9 (.fcons "x" (.vnum 1) .fnil) (.fcons "y" (.vnum 3) .fnil) "x" rfl).1⟩

/-!
Runtime guards (`guards.ts`): actor context extraction, the capability
check and the role-rank check, together with the typed error taxonomy
these modules raise.
-/

/-- The typed error kinds of the skill/configuration subsystem; `external`
stands for errors produced by collaborators outside this core (storage,
module hooks, the dispatcher). -/
inductive XErrKind where
  | badParams | notAllowlisted | badExport | badModule | moduleConflict
  | moduleDisabled | skillDisabled | resolveFailed | badConfig | persistFailed
  | forbidden | initError | external
deriving Repr, DecidableEq

structure XErr where
  kind : XErrKind
  msg : String
deriving Repr, DecidableEq

structure AgentActor where
  user_id : Option String := none
  role : Option String := none
  channel : Option String := none
  source : Option String := none
deriving Repr, DecidableEq

structure AgentCommandCtx where
  _wid : Option String := none
  _sid : Option String := none
  kernel_cap : Option String := none
  actor : Option AgentActor := none
deriving Repr, DecidableEq

/-- The slice of `XCommandData` the guards and the skill-manager command
handlers read: the command parameters and the root-level context carrier. -/
structure XCmd where
  _params : Option JVal := none
  _ctx : Option JVal := none

/-- A string-typed field of an object (`typeof v === "string"`). -/
def getStrField (fs : JFields) (k : String) : Option String :=
  match objGet fs k with
  | some (.vstr s) => some s
  | _ => none

/-- `to_ctx` from guards.ts: extract the context carrier; only string-typed
fields are copied, an actor is present exactly when `value.actor` is a
plain object. -/
def to_ctx : Option JVal → AgentCommandCtx
  | some (.vobj fs) =>
    { _wid := getStrField fs "_wid"
      _sid := getStrField fs "_sid"
      kernel_cap := getStrField fs "kernel_cap"
      actor :=
        match objGet fs "actor" with
        | some (.vobj afs) =>
          some { user_id := getStrField afs "user_id"
                 role := getStrField afs "role"
                 channel := getStrField afs "channel"
                 source := getStrField afs "source" }
        | _ => none }
  | _ => {}

/-- The `_ctx` carrier nested inside the command's parameters. -/
def paramsCtx (xcmd : XCmd) : Option JVal :=
  match xcmd._params with
  | some (.vobj fs) => objGet fs "_ctx"
  | _ => none

/-- `readCommandCtx` from guards.ts: root fields populate first, fields
present in the parameter-level carrier override; a parameter-level actor
takes precedence over a root-level one. -/
def readCommandCtx (xcmd : XCmd) : AgentCommandCtx :=
  let root_ctx := to_ctx xcmd._ctx
  let params_ctx := to_ctx (paramsCtx xcmd)
  { _wid := params_ctx._wid.orElse (fun _ => root_ctx._wid)
    _sid := params_ctx._sid.orElse (fun _ => root_ctx._sid)
    kernel_cap := params_ctx.kernel_cap.orElse (fun _ => root_ctx.kernel_cap)
    actor := params_ctx.actor.orElse (fun _ => root_ctx.actor) }

/-- The role-rank table of `requireActorRole`; unknown roles have no rank. -/
def role_rank : String → Option Nat := fun r =>
  if r = "customer" then some 1
  else if r = "admin" then some 2
  else if r = "owner" then some 3
  else if r = "system" then some 4
  else none

/-- `requireKernelCap`: the process secret (empty = uninitialized) must be
installed and the context must present exactly that token. -/
def requireKernelCap (secret : String) (ctx : AgentCommandCtx) : Except XErr Unit :=
  if secret = "" then
    .error ⟨.initError, "Kernel cap secret is not initialized"⟩
  else
    match ctx.kernel_cap with
    | none => .error ⟨.forbidden, "Missing kernel capability"⟩
    | some c =>
      if c = "" then .error ⟨.forbidden, "Missing kernel capability"⟩
      else if c ≠ secret then .error ⟨.forbidden, "Invalid kernel capability"⟩
      else .ok ()

/-- `requireActorRole`: a missing or empty-string role is rejected
(JavaScript falsiness of the extracted `current_role`); otherwise the
source compares `rank[current_role] < rank[role]`, a comparison that is
false in JavaScript whenever either rank is undefined, so only a known
lower-ranked role is rejected. -/
def requireActorRole (ctx : AgentCommandCtx) (role : String) : Except XErr Unit :=
  match ctx.actor.bind (fun a => a.role) with
  | none => .error ⟨.forbidden, "Missing required actor role: " ++ role⟩
  | some r =>
    if r = "" then .error ⟨.forbidden, "Missing required actor role: " ++ role⟩
    else
      match role_rank r, role_rank role with
      | some cr, some rr =>
        if cr < rr then .error ⟨.forbidden, "Missing required actor role: " ++ role⟩
        else .ok ()
      | _, _ => .ok ()

/-- `requireKernelCapOrActorRole`: capability first, role as fallback. -/
def requireKernelCapOrActorRole (secret : String) (ctx : AgentCommandCtx)
    (role : String) : Except XErr Unit :=
  match requireKernelCap secret ctx with
  | .ok _ => .ok ()
  | .error _ => requireActorRole ctx role

/-- C4 (amended): every context whose actor role is a NON-EMPTY string
outside the four known roles passes `requireActorRole` for every required
minimum role, because the rank lookup yields no rank and the JavaScript
comparison with the required rank is then false; and `to_ctx` copies any
string role from the carrier into the context without validation. -/
theorem claim_C4 :
    (∀ (ctx : AgentCommandCtx) (role r : String),
      ctx.actor.bind (fun a => a.role) = some r → r ≠ "" → role_rank r = none →
      requireActorRole ctx role = .ok ())
    ∧ (∀ (fs afs : JFields) (s : String),
      objGet fs "actor" = some (.vobj afs) → objGet afs "role" = some (.vstr s) →
      (to_ctx (some (.vobj fs))).actor.bind (fun a => a.role) = some s) := by
  constructor
  · intro ctx role r h hne hrank
    unfold requireActorRole
    rw [h]
    simp [hne, hrank]
  · intro fs afs s h1 h2
    simp [to_ctx, h1, getStrField, h2]

/-- C4 counterexample: the empty string is a string outside the four known
roles, yet `requireActorRole` throws Forbidden on it (the JavaScript
falsiness check treats a present-but-empty role as missing), so the claim
as stated — every unknown string role passes — is false. -/
theorem claim_C4_counterexample :
    role_rank "" = none
    ∧ requireActorRole { actor := some { role := some "" } } "admin"
      = .error ⟨.forbidden, "Missing required actor role: admin"⟩ :=
  ⟨rfl, rfl⟩

/-- C4 witness: a concrete unknown non-empty role passes the admin check
and is copied verbatim from the parameter carrier. -/
theorem claim_C4_witness :
    requireActorRole { actor := some { role := some "hacker" } } "admin" = .ok ()
    ∧ (to_ctx (some (.vobj (.fcons "actor"
        (.vobj (.fcons "role" (.vstr "hacker") .fnil)) .fnil)))).actor.bind
        (fun a => a.role) = some "hacker" :=
  ⟨claim_C4.1 { actor := some { role := some "hacker" } } "admin" "hacker"
      rfl (by decide) rfl,
   claim_C4.2 (.fcons "actor" (.vobj (.fcons "role" (.vstr "hacker") .fnil)) .fnil)
      (.fcons "role" (.vstr "hacker") .fnil) "hacker" rfl rfl⟩

/-!
Shared validation helpers of `SkillManagerModule`.
-/

/-- `ensure_non_empty_string` applied to an already string-typed value. -/
def ensure_non_empty_str (s : String) (field_name : String) : Except XErr String :=
  if jsTrim s = "" then
    .error ⟨.badParams, "Invalid " ++ field_name ++ ": expected non-empty string"⟩
  else .ok (jsTrim s)

/-- `ensure_non_empty_string` from SkillManagerModule: any non-string or
blank value is rejected, the trimmed string is returned. -/
def ensure_non_empty_string (v : Option JVal) (field_name : String) :
    Except XErr String :=
  match v with
  | some (.vstr s) => ensure_non_empty_str s field_name
  | _ => .error ⟨.badParams, "Invalid " ++ field_name ++ ": expected non-empty string"⟩

/-- `normalize_string_array` from SkillManagerModule, applied to the
string elements: trim, drop blanks, de-duplicate keeping first occurrence. -/
def normalize_string_array (xs : List String) : List String :=
  xs.foldl (fun acc s =>
    let t := jsTrim s
    if t = "" ∨ t ∈ acc then acc else acc ++ [t]) []

/-- The string elements of a JSON array (non-strings are skipped, as in
`normalize_string_array`'s item filter). -/
def stringsOfJArr : JArr → List String
  | .anil => []
  | .acons (.vstr s) rest => s :: stringsOfJArr rest
  | .acons _ rest => stringsOfJArr rest

/-- `normalize_string_array` on a raw JSON value: non-arrays yield `[]`. -/
def normalize_jstring_array (v : Option JVal) : List String :=
  match v with
  | some (.varr xs) => normalize_string_array (stringsOfJArr xs)
  | _ => []

/-- `ensure_json_object` from SkillManagerModule (on a value known to be
present): plain object, function-free. -/
def ensure_json_object (v : JVal) (field_name : String) : Except XErr JFields :=
  match v with
  | .vobj fs =>
    if has_function (.vobj fs) then
      .error ⟨.badParams, field_name ++ " must be JSON-safe"⟩
    else .ok fs
  | _ => .error ⟨.badParams, field_name ++ " must be an object"⟩

theorem normalize_fold_mem (xs : List String) :
    ∀ (acc : List String) (a : String),
    a ∈ xs.foldl (fun acc s =>
      let t := jsTrim s
      if t = "" ∨ t ∈ acc then acc else acc ++ [t]) acc
    ↔ a ∈ acc ∨ (a ≠ "" ∧ ∃ s ∈ xs, jsTrim s = a) := by
  induction xs with
  | nil => intro acc a; simp
  | cons x rest ih =>
    intro acc a
    rw [List.foldl_cons]
    by_cases hx : jsTrim x = "" ∨ jsTrim x ∈ acc
    · simp only [hx, if_pos]
      rw [ih acc a]
      constructor
      · rintro (h | ⟨hne, s, hs, hts⟩)
        · exact Or.inl h
        · exact Or.inr ⟨hne, s, List.mem_cons_of_mem _ hs, hts⟩
      · rintro (h | ⟨hne, s, hs, hts⟩)
        · exact Or.inl h
        · rcases List.mem_cons.mp hs with hsx | hsr
          · subst hsx
            rcases hx with hx | hx
            · exact absurd (hts ▸ hx) hne
            · exact Or.inl (hts ▸ hx)
          · exact Or.inr ⟨hne, s, hsr, hts⟩
    · simp only [hx, if_neg, if_false]
      rw [ih (acc ++ [jsTrim x]) a]
      push_neg at hx
      constructor
      · rintro (h | ⟨hne, s, hs, hts⟩)
        · rcases List.mem_append.mp h with h | h
          · exact Or.inl h
          · have hax : a = jsTrim x := by simpa using h
            exact Or.inr ⟨hax ▸ hx.1, x, List.mem_cons_self x rest, hax.symm⟩
        · exact Or.inr ⟨hne, s, List.mem_cons_of_mem _ hs, hts⟩
      · rintro (h | ⟨hne, s, hs, hts⟩)
        · exact Or.inl (List.mem_append.mpr (Or.inl h))
        · rcases List.mem_cons.mp hs with hsx | hsr
          · subst hsx
            exact Or.inl (List.mem_append.mpr (Or.inr (by simp [hts])))
          · exact Or.inr ⟨hne, s, hsr, hts⟩

theorem mem_normalize_string_array (xs : List String) (a : String) :
    a ∈ normalize_string_array xs ↔ a ≠ "" ∧ ∃ s ∈ xs, jsTrim s = a := by
  rw [normalize_string_array, normalize_fold_mem xs [] a]
  simp

/-!
The sandbox context's `execute` (`create_skill_context.execute`): the
enabled/activating gate, input validation, the `"module.op"` capability
gate, and the forwarded internal context carrying the system actor.
-/

/-- `op_key(module, op)`. -/
def op_key (module_name op : String) : String := module_name ++ "." ++ op

/-- The internal `_ctx` the sandbox attaches to a forwarded command. -/
structure FwdCtx where
  kernel_cap : Option String
  actor_role : String
  actor_source : String
  meta : Option JVal

/-- The command the sandbox forwards to the dispatcher. -/
structure FwdCmd where
  moduleName : String
  opName : String
  params : JFields
  ctx : FwdCtx

/-- `create_skill_context.execute`: requires the skill to be enabled or
activating, validates module/op/params/meta, computes `"module.op"`,
attaches the process capability token exactly when that key is in the
skill's normalized `kernel_ops` allow-list, and always attaches a
role-"system" actor tagged `skill:<id>`. -/
def sandbox_execute (kernel_cap_secret : String)
    (enabled activating : List String) (skill_id : String)
    (kernel_ops : List String) (module_name op : String)
    (params meta : Option JVal) : Except XErr FwdCmd :=
  if skill_id ∉ enabled ∧ skill_id ∉ activating then
    .error ⟨.skillDisabled, "Skill is disabled: " ++ skill_id⟩
  else
    match ensure_non_empty_str module_name "module" with
    | .error e => .error e
    | .ok m =>
      match ensure_non_empty_str op "op" with
      | .error e => .error e
      | .ok o =>
        match (match params with
               | none => .ok .fnil
               | some pv => ensure_json_object pv "params" :
               Except XErr JFields) with
        | .error e => .error e
        | .ok pfs =>
          match meta with
          | some mv =>
            if has_function mv then .error ⟨.badParams, "meta must be JSON-safe"⟩
            else
              .ok { moduleName := m, opName := o, params := pfs,
                    ctx := { kernel_cap :=
                               if op_key m o ∈ normalize_string_array kernel_ops
                               then some kernel_cap_secret else none,
                             actor_role := "system",
                             actor_source := "skill:" ++ skill_id,
                             meta := some mv } }
          | none =>
            .ok { moduleName := m, opName := o, params := pfs,
                  ctx := { kernel_cap :=
                             if op_key m o ∈ normalize_string_array kernel_ops
                             then some kernel_cap_secret else none,
                           actor_role := "system",
                           actor_source := "skill:" ++ skill_id,
                           meta := none } }

/-- Helper building the sandbox's forwarded command record. -/
def mkFwdCmd (m o : String) (pfs : JFields) (cap : Option String)
    (sid : String) (meta : Option JVal) : FwdCmd where
  moduleName := m
  opName := o
  params := pfs
  ctx := { kernel_cap := cap, actor_role := "system",
           actor_source := "skill:" ++ sid, meta := meta }

theorem op_key_ne_empty (m o : String) : op_key m o ≠ "" := by
  intro h
  have hlen := congrArg String.length h
  rw [op_key] at hlen
  have h1 : ("." : String).length = 1 := rfl
  simp [String.length_append, h1] at hlen

/-- C3: for every enabled-or-activating skill, trimmed non-empty module and
op names, well-formed params and function-free meta, the sandbox forwards a
command whose internal context holds the capability token iff `"module.op"`
is in the skill's declared (trimmed) `kernel_ops` allow-list, and always an
actor of role "system" whose source is `skill:<id>`. -/
theorem claim_C3 (secret : String) (enabled activating : List String)
    (skill_id : String) (kernel_ops : List String) (m o : String)
    (params meta : Option JVal) (pfs : JFields)
    (hen : skill_id ∈ enabled ∨ skill_id ∈ activating)
    (hm : jsTrim m = m) (hm0 : m ≠ "")
    (ho : jsTrim o = o) (ho0 : o ≠ "")
    (hops : ∀ s ∈ kernel_ops, jsTrim s = s)
    (hparams : params = none ∨ (params = some (.vobj pfs) ∧ has_function (.vobj pfs) = false))
    (hmeta : meta = none ∨ ∃ mv, meta = some mv ∧ has_function mv = false) :
    ∃ cmd : FwdCmd,
      sandbox_execute secret enabled activating skill_id kernel_ops m o params meta
        = .ok cmd
      ∧ (cmd.ctx.kernel_cap = some secret ↔ op_key m o ∈ kernel_ops)
      ∧ cmd.ctx.actor_role = "system"
      ∧ cmd.ctx.actor_source = "skill:" ++ skill_id := by
  have hgate : ¬ (skill_id ∉ enabled ∧ skill_id ∉ activating) := by tauto
  have hiff : (op_key m o ∈ normalize_string_array kernel_ops)
      ↔ (op_key m o ∈ kernel_ops) := by
    rw [mem_normalize_string_array]
    constructor
    · rintro ⟨-, s, hs, hts⟩
      rw [hops s hs] at hts
      exact hts ▸ hs
    · intro h
      exact ⟨op_key_ne_empty m o, op_key m o, h, hops _ h⟩
  rcases hparams with hparams | ⟨hparams, hpf⟩
  · subst hparams
    rcases hmeta with hmeta | ⟨mv, hmeta, hmf⟩
    · subst hmeta
      by_cases hall : op_key m o ∈ normalize_string_array kernel_ops
      · refine ⟨mkFwdCmd m o .fnil (some secret) skill_id none, ?_, ?_, rfl, rfl⟩
        · simp [mkFwdCmd, sandbox_execute, hgate, ensure_non_empty_str, hm, hm0, ho, ho0, hall]
        · simp [mkFwdCmd, ← hiff, hall]
      · refine ⟨mkFwdCmd m o .fnil none skill_id none, ?_, ?_, rfl, rfl⟩
        · simp [mkFwdCmd, sandbox_execute, hgate, ensure_non_empty_str, hm, hm0, ho, ho0, hall]
        · simp [mkFwdCmd, ← hiff, hall]
    · subst hmeta
      by_cases hall : op_key m o ∈ normalize_string_array kernel_ops
      · refine ⟨mkFwdCmd m o .fnil (some secret) skill_id (some mv), ?_, ?_, rfl, rfl⟩
        · simp [mkFwdCmd, sandbox_execute, hgate, ensure_non_empty_str, hm, hm0, ho, ho0,
            hall, hmf]
        · simp [mkFwdCmd, ← hiff, hall]
      · refine ⟨mkFwdCmd m o .fnil none skill_id (some mv), ?_, ?_, rfl, rfl⟩
        · simp [mkFwdCmd, sandbox_execute, hgate, ensure_non_empty_str, hm, hm0, ho, ho0,
            hall, hmf]
        · simp [mkFwdCmd, ← hiff, hall]
  · subst hparams
    rcases hmeta with hmeta | ⟨mv, hmeta, hmf⟩
    · subst hmeta
      by_cases hall : op_key m o ∈ normalize_string_array kernel_ops
      · refine ⟨mkFwdCmd m o pfs (some secret) skill_id none, ?_, ?_, rfl, rfl⟩
        · simp [mkFwdCmd, sandbox_execute, hgate, ensure_non_empty_str, hm, hm0, ho, ho0,
            ensure_json_object, hall, hpf]
        · simp [mkFwdCmd, ← hiff, hall]
      · refine ⟨mkFwdCmd m o pfs none skill_id none, ?_, ?_, rfl, rfl⟩
        · simp [mkFwdCmd, sandbox_execute, hgate, ensure_non_empty_str, hm, hm0, ho, ho0,
            ensure_json_object, hall, hpf]
        · simp [mkFwdCmd, ← hiff, hall]
    · subst hmeta
      by_cases hall : op_key m o ∈ normalize_string_array kernel_ops
      · refine ⟨mkFwdCmd m o pfs (some secret) skill_id (some mv), ?_, ?_, rfl, rfl⟩
        · simp [mkFwdCmd, sandbox_execute, hgate, ensure_non_empty_str, hm, hm0, ho, ho0,
            ensure_json_object, hall, hpf, hmf]
        · simp [mkFwdCmd, ← hiff, hall]
      · refine ⟨mkFwdCmd m o pfs none skill_id (some mv), ?_, ?_, rfl, rfl⟩
        · simp [mkFwdCmd, sandbox_execute, hgate, ensure_non_empty_str, hm, hm0, ho, ho0,
            ensure_json_object, hall, hpf, hmf]
        · simp [mkFwdCmd, ← hiff, hall]

/-- C3 witness: a concrete allow-listed call carries the token. -/
theorem claim_C3_witness :
    ∃ cmd : FwdCmd,
      sandbox_execute "cap-secret" ["sk"] [] "sk" ["chat.send"] "chat" "send"
        none none = .ok cmd
      ∧ (cmd.ctx.kernel_cap = some "cap-secret" ↔ op_key "chat" "send" ∈ ["chat.send"])
      ∧ cmd.ctx.actor_role = "system"
      ∧ cmd.ctx.actor_source = "skill:" ++ "sk" :=
  claim_C3 "cap-secret" ["sk"] [] "sk" ["chat.send"] "chat" "send" none none .fnil
    (Or.inl (by decide)) rfl (by decide) rfl (by decide)
    (by decide) (Or.inl rfl) (Or.inl rfl)

/-!
The Skill Registry/Manager (`SkillManagerModule`): mutable state, the
enable/disable lifecycle, module ownership, defaults bootstrap and
persistence.  External collaborators (the settings module reached through
the dispatcher, the filesystem, package loading, and the skills' own
hooks) are abstracted as a `ManagerEnv` of call outcomes; skill hooks are
modelled by the module registrations they perform plus a final outcome,
and cannot touch the manager's own state directly.
-/

/-- Generic string-keyed map (JavaScript `Map`) as an assoc list. -/
def alGet {α : Type} : List (String × α) → String → Option α
  | [], _ => none
  | (k0, v0) :: rest, k => if k0 = k then some v0 else alGet rest k

def alSet {α : Type} : List (String × α) → String → α → List (String × α)
  | [], k, v => [(k, v)]
  | (k0, v0) :: rest, k, v =>
    if k0 = k then (k, v) :: rest else (k0, v0) :: alSet rest k v

def alErase {α : Type} : List (String × α) → String → List (String × α)
  | [], _ => []
  | (k0, v0) :: rest, k => if k0 = k then rest else (k0, v0) :: alErase rest k

/-- JavaScript `Set` add/delete on a duplicate-free list. -/
def setAdd (s : List String) (x : String) : List String :=
  if x ∈ s then s else s ++ [x]

def setDel (s : List String) (x : String) : List String := s.erase x

/-- Code-point order on strings, modelling the `localeCompare` sort. -/
def charListLe : List Char → List Char → Bool
  | [], _ => true
  | _ :: _, [] => false
  | a :: as, b :: bs =>
    if a.val < b.val then true
    else if b.val < a.val then false
    else charListLe as bs

def strLeB (a b : String) : Bool := charListLe a.data b.data

def insertSorted (x : String) : List String → List String
  | [] => [x]
  | y :: ys => if strLeB x y then x :: y :: ys else y :: insertSorted x ys

def sortStrings (l : List String) : List String := l.foldr insertSorted []

/-- `XBotSkillCapability`. -/
structure Caps where
  kernel_ops : List String := []
  channels : List String := []
  network : Option Bool := none
deriving Repr, DecidableEq

inductive SkillStatus where
  | loaded | disabled | error
deriving Repr, DecidableEq

/-- `LoadedSkillRecord` (the externally visible projection). -/
structure LoadedRec where
  version : Option String := none
  enabled : Bool
  status : SkillStatus
  error : Option String := none
  source : Option String := none
  capabilities : Option Caps := none
  modules_registered : Option (List String) := none
deriving Repr, DecidableEq

/-- `SkillRuntimeRecord` (sans the live context/hook closures: the disable
hook is modelled by its presence, its behaviour lives in the env). -/
structure RuntimeRec where
  version : String
  kind : String
  capabilities : Caps
  source : String
  hasOnDisable : Bool
deriving Repr, DecidableEq

/-- `SkillSettingsMeta` (the schema plays no role in these claims but is
carried for shape fidelity). -/
structure SettingsMeta where
  defaults : Option JVal := none
  sensitive : Option (List String) := none
  schema : Option JVal := none

/-- The mutable state of `SkillManagerModule`: configuration, enabled and
activating sets, loaded projections, runtime records, the bidirectional
skill↔module ownership maps, cached settings metadata, and the module
registry (the external `_x` registry's set of loaded module names). -/
structure SMState where
  allow : List String
  cfg_enabled : List String
  node_modules : Bool
  local_paths : List String
  enabled : List String
  activating : List String
  loaded : List (String × LoadedRec)
  runtime : List (String × RuntimeRec)
  skill_modules : List (String × List String)
  module_skill : List (String × String)
  settings_meta : List (String × SettingsMeta)
  registry : List String

structure ResolvedEntry where
  specifier : String
  source : String
deriving Repr, DecidableEq

/-- The validated descriptor produced by `resolve_skill_descriptor` for a
loaded package (hooks abstracted into the env). -/
structure Descriptor where
  version : String
  kind : String
  capabilities : Caps
  settings_meta : Option SettingsMeta
  hasOnDisable : Bool

/-- Behaviour of a skill's `on_enable` hook: the module registrations it
performs through its sandbox context (in order) and its final outcome. -/
structure OnEnableResult where
  registrations : List String
  outcome : Except XErr Unit

/-- Outcomes of all external calls the manager makes. -/
structure ManagerEnv where
  resolveEntry : String → Except XErr ResolvedEntry
  loadDescriptor : String → Except XErr Descriptor
  onEnable : String → OnEnableResult
  onDisable : String → Except XErr Unit
  settingsGetSkill : String → Except XErr Unit
  settingsGetSkillsDoc : Except XErr JVal
  settingsSetSkill : String → JVal → Except XErr Unit
  readConfigFile : Except XErr (Option JVal)
  writeConfigFile : JVal → Except XErr Unit

def isEmptyFields : JFields → Bool
  | .fnil => true
  | .fcons .. => false

/-- The `skills` bucket inside the response of `settings.get {key:"skills"}`
(`existing_data.value` guarded by the plain-object checks). -/
def skills_bucket_of (response : JVal) : JFields :=
  match response with
  | .vobj fs =>
    match objGet fs "value" with
    | some (.vobj bs) => bs
    | _ => .fnil
  | _ => .fnil

/-- `bootstrap_skill_settings_defaults`: read the skill bucket once (lazy
init), then — only when the skill declares non-empty object defaults and no
bucket for the id exists in the root document — write the defaults
verbatim.  Returns the patch written, if any. -/
def bootstrap_skill_settings_defaults (env : ManagerEnv) (skill_id : String)
    (meta : Option SettingsMeta) : Except XErr (Option JVal) :=
  match env.settingsGetSkill skill_id with
  | .error e => .error e
  | .ok _ =>
    let defaults : JFields :=
      match meta with
      | some m =>
        match m.defaults with
        | some (.vobj fs) => fs
        | _ => .fnil
      | none => .fnil
    if isEmptyFields defaults then .ok none
    else
      match env.settingsGetSkillsDoc with
      | .error e => .error e
      | .ok existing =>
        if objHasKey (skills_bucket_of existing) skill_id then .ok none
        else
          match env.settingsSetSkill skill_id (.vobj defaults) with
          | .error e => .error e
          | .ok _ => .ok (some (.vobj defaults))

/-- Record skill↔module ownership bidirectionally. -/
def record_ownership (st : SMState) (skill_id module_name : String) : SMState :=
  { st with
    skill_modules := alSet st.skill_modules skill_id
      (setAdd ((alGet st.skill_modules skill_id).getD []) module_name)
    module_skill := alSet st.module_skill module_name skill_id }

/-- `create_skill_context.registerModule`: reject a name owned by another
skill; load the module if absent from the registry, and reject a
pre-existing module owned by no skill; then record ownership. -/
def register_module (st : SMState) (skill_id : String) (raw_name : String) :
    Except XErr SMState :=
  match ensure_non_empty_str raw_name "module _name" with
  | .error e => .error e
  | .ok module_name =>
    let mapped := alGet st.module_skill module_name
    if mapped ≠ none ∧ mapped ≠ some skill_id then
      .error ⟨.moduleConflict, "Module '" ++ module_name ++ "' already registered"⟩
    else if module_name ∉ st.registry then
      .ok (record_ownership
        { st with registry := st.registry ++ [module_name] } skill_id module_name)
    else if mapped = none then
      .error ⟨.moduleConflict,
        "Module '" ++ module_name ++ "' already exists and is not managed by skill '"
          ++ skill_id ++ "'"⟩
    else .ok (record_ownership st skill_id module_name)

/-- The sequence of `registerModule` calls a hook performs; the state after
the successful prefix is kept when one fails (the hook then throws). -/
def apply_registrations (skill_id : String) :
    SMState → List String → Except XErr Unit × SMState
  | st, [] => (.ok (), st)
  | st, m :: rest =>
    match register_module st skill_id m with
    | .error e => (.error e, st)
    | .ok st1 => apply_registrations skill_id st1 rest

/-- `set_error_state`. -/
def set_error_state (st : SMState) (id msg : String) (src : Option String) :
    SMState :=
  let existing := alGet st.loaded id
  let rt := alGet st.runtime id
  let modules := sortStrings ((alGet st.skill_modules id).getD [])
  let newrec : LoadedRec :=
    { version := (rt.map (fun r => r.version)).orElse
        (fun _ => existing.bind (fun e2 => e2.version))
      enabled := false
      status := .error
      error := some msg
      source := src.orElse (fun _ => (existing.bind (fun e2 => e2.source)).orElse
        (fun _ => rt.map (fun r => r.source)))
      capabilities := (rt.map (fun r => r.capabilities)).orElse
        (fun _ => existing.bind (fun e2 => e2.capabilities))
      modules_registered := some modules }
  { st with loaded := alSet st.loaded id newrec }

/-- The catch+finally tail of `enable_skill`'s full path: roll back the
enabled flag, record the error state, drop cached settings metadata,
leave the activating window, re-raise. -/
def enable_fail (st : SMState) (id : String) (e : XErr) (source : String) :
    Except XErr Unit × SMState :=
  let st1 := { st with enabled := setDel st.enabled id }
  let st2 := set_error_state st1 id e.msg (some source)
  (.error e, { st2 with settings_meta := alErase st2.settings_meta id,
                        activating := setDel st2.activating id })

/-- The fast re-enable path (record disabled, runtime present): re-run the
idempotent defaults bootstrap, invoke owned modules' enable hooks
(best-effort, caught), mark enabled, rebuild the public record preserving
version/capabilities/source. -/
def enable_fast (env : ManagerEnv) (st : SMState) (id : String)
    (existing : LoadedRec) : Except XErr Unit × SMState :=
  match bootstrap_skill_settings_defaults env id (alGet st.settings_meta id) with
  | .error e => (.error e, st)
  | .ok _ =>
    let st1 := { st with enabled := setAdd st.enabled id }
    let rt := alGet st1.runtime id
    let modules : List String :=
      match rt with
      | some _ => (alGet st1.skill_modules id).getD []
      | none => []
    let newrec : LoadedRec :=
      { version := rt.map (fun r => r.version)
        enabled := true
        status := .loaded
        error := none
        source := existing.source.orElse (fun _ => rt.map (fun r => r.source))
        capabilities := rt.map (fun r => r.capabilities)
        modules_registered := some (sortStrings modules) }
    (.ok (), { st1 with loaded := alSet st1.loaded id newrec })

/-- Entering the activating window of the full enable path: mark
activating and cache the descriptor's settings metadata (an empty record
when none is declared). -/
def enable_begin (st : SMState) (id : String) (descriptor : Descriptor) : SMState :=
  { st with
    activating := setAdd st.activating id,
    settings_meta := alSet st.settings_meta id (descriptor.settings_meta.getD {}) }

/-- The success tail of the full enable path: mark enabled, snapshot the
modules registered so far, record the runtime record and the loaded
projection, and leave the activating window. -/
def enable_commit (st2 : SMState) (id : String) (descriptor : Descriptor)
    (resolved : ResolvedEntry) : Except XErr Unit × SMState :=
  let st3 := { st2 with enabled := setAdd st2.enabled id }
  let modules := sortStrings ((alGet st3.skill_modules id).getD [])
  let rtrec : RuntimeRec :=
    { version := descriptor.version, kind := descriptor.kind,
      capabilities := descriptor.capabilities,
      source := resolved.source,
      hasOnDisable := descriptor.hasOnDisable }
  let st4 := { st3 with runtime := alSet st3.runtime id rtrec }
  let newrec : LoadedRec :=
    { version := some descriptor.version, enabled := true,
      status := .loaded, error := none,
      source := some resolved.source,
      capabilities := some descriptor.capabilities,
      modules_registered := some modules }
  (.ok (), { st4 with
    activating := setDel st4.activating id,
    loaded := alSet st4.loaded id newrec })

/-- The full load path of `enable_skill`: resolve, load and validate the
descriptor, enter the activating window, cache settings metadata,
bootstrap defaults, run the enable hook (its registrations then its
outcome); on success record runtime and loaded state, on failure roll
back via `enable_fail`.  Resolution/load/validation failures propagate
without recording an error state (they occur before the try block). -/
def enable_full (env : ManagerEnv) (st : SMState) (id : String) :
    Except XErr Unit × SMState :=
  match env.resolveEntry id with
  | .error e => (.error e, st)
  | .ok resolved =>
    match env.loadDescriptor id with
    | .error e => (.error e, st)
    | .ok descriptor =>
      match bootstrap_skill_settings_defaults env id descriptor.settings_meta with
      | .error e => enable_fail (enable_begin st id descriptor) id e resolved.source
      | .ok _ =>
        match apply_registrations id (enable_begin st id descriptor)
            (env.onEnable id).registrations with
        | (.error e, st2) => enable_fail st2 id e resolved.source
        | (.ok _, st2) =>
          match (env.onEnable id).outcome with
          | .error e => enable_fail st2 id e resolved.source
          | .ok _ => enable_commit st2 id descriptor resolved

/-- `enable_skill`: allow-list gate, no-op when already enabled and loaded,
fast path for a disabled record with a runtime, full load otherwise. -/
def enable_skill (env : ManagerEnv) (st : SMState) (id : String) :
    Except XErr Unit × SMState :=
  if id ∉ st.allow then
    (.error ⟨.notAllowlisted, "Skill id is not in allowlist: " ++ id⟩, st)
  else
    match alGet st.loaded id with
    | some existing =>
      if existing.status = .loaded ∧ id ∈ st.enabled then (.ok (), st)
      else if existing.status = .disabled ∧ (alGet st.runtime id).isSome then
        enable_fast env st id existing
      else enable_full env st id
    | none => enable_full env st id

/-- `disable_skill`: allow-list gate, remove from the enabled set first,
then best-effort hooks (the declared on_disable and the owned modules'
disable ops — every failure is caught and logged, none aborts), and record
the disabled projection preserving the ownership list. -/
def disable_skill (env : ManagerEnv) (st : SMState) (id : String) :
    Except XErr Unit × SMState :=
  if id ∉ st.allow then
    (.error ⟨.notAllowlisted, "Skill id is not in allowlist: " ++ id⟩, st)
  else
    let rt := alGet st.runtime id
    let st1 := { st with enabled := setDel st.enabled id }
    let modules := sortStrings ((alGet st1.skill_modules id).getD [])
    let existing := alGet st1.loaded id
    let newrec : LoadedRec :=
      { version := (rt.map (fun r => r.version)).orElse
          (fun _ => existing.bind (fun e2 => e2.version))
        enabled := false
        status := .disabled
        error := none
        source := (existing.bind (fun e2 => e2.source)).orElse
          (fun _ => rt.map (fun r => r.source))
        capabilities := (rt.map (fun r => r.capabilities)).orElse
          (fun _ => existing.bind (fun e2 => e2.capabilities))
        modules_registered := some modules }
    (.ok (), { st1 with loaded := alSet st1.loaded id newrec })

/-- The sorted enabled ids restricted to the allow list — exactly what
`persist_enabled_to_agent_config` stores. -/
def persistedEnabledList (st : SMState) : List String :=
  (sortStrings st.enabled).filter (fun id => id ∈ st.allow)

def parsedFieldsOf (fileDoc : Option JVal) : JFields :=
  match fileDoc with
  | some (.vobj fs) => fs
  | _ => .fnil

def jarrOfStrings : List String → JArr
  | [] => .anil
  | s :: rest => .acons (.vstr s) (jarrOfStrings rest)

/-- The document `persist_enabled_to_agent_config` writes: the parsed file
with its `skills` key rebuilt (spread of the existing skills object, then
allow, enabled, resolve in that order), every sibling key untouched. -/
def build_persisted_config (st : SMState) (enabledList : List String)
    (fileDoc : Option JVal) : JFields :=
  let parsed := parsedFieldsOf fileDoc
  let existing_skills :=
    match objGet parsed "skills" with
    | some (.vobj fs) => fs
    | _ => .fnil
  let existing_resolve :=
    match objGet existing_skills "resolve" with
    | some (.vobj fs) => fs
    | _ => .fnil
  let newResolve :=
    objSet (objSet existing_resolve "node_modules" (.vbool st.node_modules))
      "local_paths" (.varr (jarrOfStrings st.local_paths))
  let newSkills :=
    objSet (objSet (objSet existing_skills "allow" (.varr (jarrOfStrings st.allow)))
      "enabled" (.varr (jarrOfStrings enabledList))) "resolve" (.vobj newResolve)
  objSet parsed "skills" (.vobj newSkills)

/-- `persist_enabled_to_agent_config`: update the in-memory config's
enabled list, read-modify-write the backing file (ENOENT tolerated as an
empty document, other read errors and write errors re-raised). -/
def persist_enabled (env : ManagerEnv) (st : SMState) :
    Except XErr Unit × SMState :=
  let enabledList := persistedEnabledList st
  let st1 := { st with cfg_enabled := enabledList }
  let res : Except XErr Unit :=
    match env.readConfigFile with
    | .error e => .error e
    | .ok fileDoc =>
      match env.writeConfigFile (.vobj (build_persisted_config st1 enabledList fileDoc)) with
      | .error e => .error e
      | .ok _ => .ok ()
  (res, st1)

/-- `ensure_params`: undefined/null becomes `{}`, non-objects and
function-carrying values are rejected. -/
def ensure_params (v : Option JVal) : Except XErr JFields :=
  match v with
  | none => .ok .fnil
  | some .vnull => .ok .fnil
  | some (.vobj fs) =>
    if has_function (.vobj fs) then
      .error ⟨.badParams, "params must be JSON-safe"⟩
    else .ok fs
  | some _ => .error ⟨.badParams, "Expected params to be an object"⟩

/-- The `enable` command (`enable_impl`): guard, read the id, enable, then
persist; if persistence throws, revert a fresh enable by disabling
(best-effort) and surface PersistFailed. -/
def enable_impl (env : ManagerEnv) (secret : String) (st : SMState)
    (xcmd : XCmd) : Except XErr (Option LoadedRec) × SMState :=
  match requireKernelCapOrActorRole secret (readCommandCtx xcmd) "admin" with
  | .error e => (.error e, st)
  | .ok _ =>
    match ensure_params xcmd._params with
    | .error e => (.error e, st)
    | .ok params =>
      match ensure_non_empty_string (objGet params "id") "id" with
      | .error e => (.error e, st)
      | .ok id =>
        let was_enabled := id ∈ st.enabled
        match enable_skill env st id with
        | (.error e, st1) => (.error e, st1)
        | (.ok _, st1) =>
          match persist_enabled env st1 with
          | (.ok _, st2) => (.ok (alGet st2.loaded id), st2)
          | (.error _, st2) =>
            if was_enabled then
              (.error ⟨.persistFailed,
                "Failed to save enabled skills to agent.config.json"⟩, st2)
            else
              let rolled := disable_skill env st2 id
              (.error ⟨.persistFailed,
                "Failed to save enabled skills to agent.config.json"⟩, rolled.2)

/-- The `disable` command (`disable_impl`): guard, read the id, disable,
then persist; if persistence throws, revert a fresh disable by re-enabling
(best-effort) and surface PersistFailed. -/
def disable_impl (env : ManagerEnv) (secret : String) (st : SMState)
    (xcmd : XCmd) : Except XErr (Option LoadedRec) × SMState :=
  match requireKernelCapOrActorRole secret (readCommandCtx xcmd) "admin" with
  | .error e => (.error e, st)
  | .ok _ =>
    match ensure_params xcmd._params with
    | .error e => (.error e, st)
    | .ok params =>
      match ensure_non_empty_string (objGet params "id") "id" with
      | .error e => (.error e, st)
      | .ok id =>
        let was_enabled := id ∈ st.enabled
        match disable_skill env st id with
        | (.error e, st1) => (.error e, st1)
        | (.ok _, st1) =>
          match persist_enabled env st1 with
          | (.ok _, st2) => (.ok (alGet st2.loaded id), st2)
          | (.error _, st2) =>
            if was_enabled then
              let rolled := enable_skill env st2 id
              (.error ⟨.persistFailed,
                "Failed to save enabled skills to agent.config.json"⟩, rolled.2)
            else
              (.error ⟨.persistFailed,
                "Failed to save enabled skills to agent.config.json"⟩, st2)

/-- The parsed agent configuration. -/
structure AgentCfg where
  allow : List String
  enabled : List String
  node_modules : Bool
  local_paths : List String
deriving Repr, DecidableEq

/-- `read_agent_config`: ENOENT yields the default configuration; the
parsed document must be an object; the allow and enabled lists are
normalized (trim, drop blanks, de-duplicate) and enabled is filtered to
allow-listed ids. -/
def read_agent_config (fileDoc : Option JVal) : Except XErr AgentCfg :=
  match fileDoc with
  | none => .ok { allow := [], enabled := [], node_modules := true, local_paths := [] }
  | some (.vobj fs) =>
    let raw_skills :=
      match objGet fs "skills" with
      | some (.vobj sk) => sk
      | _ => .fnil
    let allow := normalize_jstring_array (objGet raw_skills "allow")
    let enabled := (normalize_jstring_array (objGet raw_skills "enabled")).filter
      (fun id => id ∈ allow)
    let raw_resolve :=
      match objGet raw_skills "resolve" with
      | some (.vobj rv) => rv
      | _ => .fnil
    let node_modules :=
      match objGet raw_resolve "node_modules" with
      | none => true
      | some (.vbool true) => true
      | some _ => false
    let local_paths := normalize_jstring_array (objGet raw_resolve "local_paths")
    .ok { allow := allow, enabled := enabled, node_modules := node_modules,
          local_paths := local_paths }
  | some _ => .error ⟨.badConfig, "agent.config.json must be an object"⟩

/-! Lemmas about the manager model's basic containers. -/

theorem alGet_alSet_self {α : Type} (l : List (String × α)) (k : String) (v : α) :
    alGet (alSet l k v) k = some v := by
  induction l with
  | nil => simp [alSet, alGet]
  | cons hd tl ih =>
    obtain ⟨k0, v0⟩ := hd
    by_cases h0 : k0 = k
    · subst h0; simp [alSet, alGet]
    · simp [alSet, alGet, h0, ih]

theorem alGet_alSet_ne {α : Type} (l : List (String × α)) {k k' : String} (v : α)
    (h : k ≠ k') : alGet (alSet l k v) k' = alGet l k' := by
  induction l with
  | nil => simp [alSet, alGet, h]
  | cons hd tl ih =>
    obtain ⟨k0, v0⟩ := hd
    by_cases h0 : k0 = k
    · subst h0
      simp [alSet, alGet, h]
    · by_cases h' : k0 = k'
      · subst h'
        simp [alSet, alGet, h0]
      · simp [alSet, alGet, h0, h', ih]

theorem mem_setAdd {l : List String} {a x : String} :
    x ∈ setAdd l a ↔ x = a ∨ x ∈ l := by
  unfold setAdd
  by_cases h : a ∈ l
  · simp only [h, if_pos]
    constructor
    · exact Or.inr
    · rintro (rfl | hx)
      · exact h
      · exact hx
  · simp [h, List.mem_append, or_comm]

theorem setAdd_of_mem {l : List String} {a : String} (h : a ∈ l) :
    setAdd l a = l := by simp [setAdd, h]

theorem setDel_setAdd_of_not_mem {l : List String} {a : String} (h : a ∉ l) :
    setDel (setAdd l a) a = l := by
  unfold setAdd setDel
  rw [if_neg h, List.erase_append_right _ h]
  simp

theorem setDel_of_not_mem {l : List String} {a : String} (h : a ∉ l) :
    setDel l a = l := List.erase_of_not_mem h

theorem mem_setAdd_setDel {l : List String} {a x : String} (ha : a ∈ l) :
    x ∈ setAdd (setDel l a) a ↔ x ∈ l := by
  rw [mem_setAdd]
  by_cases hx : x = a
  · subst hx; simp [ha]
  · simp only [hx, false_or]
    exact List.mem_erase_of_ne hx

theorem mem_insertSorted {x a : String} :
    ∀ (l : List String), a ∈ insertSorted x l ↔ a = x ∨ a ∈ l
  | [] => by simp [insertSorted]
  | y :: ys => by
    unfold insertSorted
    by_cases h : strLeB x y = true
    · simp [h]
    · simp [h, mem_insertSorted ys]
      tauto

theorem mem_sortStrings {a : String} (l : List String) :
    a ∈ sortStrings l ↔ a ∈ l := by
  induction l with
  | nil => simp [sortStrings]
  | cons x xs ih =>
    unfold sortStrings at ih ⊢
    rw [List.foldr_cons, mem_insertSorted, ih]
    simp

/-! Frame lemmas: which state fields each operation leaves untouched. -/

theorem register_module_ok_frame {st : SMState} {sid m : String} {st' : SMState}
    (h : register_module st sid m = .ok st') :
    st'.enabled = st.enabled ∧ st'.allow = st.allow ∧ st'.loaded = st.loaded
    ∧ st'.runtime = st.runtime ∧ st'.activating = st.activating
    ∧ st'.settings_meta = st.settings_meta ∧ st'.cfg_enabled = st.cfg_enabled := by
  unfold register_module at h
  cases hn : ensure_non_empty_str m "module _name" with
  | error e => simp [hn] at h
  | ok name =>
    simp only [hn] at h
    split at h
    · exact Except.noConfusion h
    · split at h
      · injection h with h2
        subst h2
        simp [record_ownership]
      · split at h
        · exact Except.noConfusion h
        · injection h with h2
          subst h2
          simp [record_ownership]

theorem apply_registrations_frame (sid : String) :
    ∀ (regs : List String) (st : SMState),
    (apply_registrations sid st regs).2.enabled = st.enabled
    ∧ (apply_registrations sid st regs).2.allow = st.allow
    ∧ (apply_registrations sid st regs).2.activating = st.activating
    ∧ (apply_registrations sid st regs).2.settings_meta = st.settings_meta := by
  intro regs
  induction regs with
  | nil => intro st; exact ⟨rfl, rfl, rfl, rfl⟩
  | cons m rest ih =>
    intro st
    cases hreg : register_module st sid m with
    | error e => simp [apply_registrations, hreg]
    | ok st1 =>
      obtain ⟨f1, f2, f3, f4, f5, f6, f7⟩ := register_module_ok_frame hreg
      obtain ⟨i1, i2, i3, i4⟩ := ih st1
      simp only [apply_registrations, hreg]
      exact ⟨i1.trans f1, i2.trans f2, i3.trans f5, i4.trans f6⟩

theorem persist_enabled_frame (env : ManagerEnv) (st : SMState) :
    (persist_enabled env st).2.enabled = st.enabled
    ∧ (persist_enabled env st).2.allow = st.allow
    ∧ (persist_enabled env st).2.loaded = st.loaded
    ∧ (persist_enabled env st).2.runtime = st.runtime
    ∧ (persist_enabled env st).2.settings_meta = st.settings_meta :=
  ⟨rfl, rfl, rfl, rfl, rfl⟩

theorem persist_enabled_fails (env : ManagerEnv) (st : SMState) {ew : XErr}
    {fileDoc : Option JVal} (hread : env.readConfigFile = .ok fileDoc)
    (hwrite : ∀ d, env.writeConfigFile d = .error ew) :
    (persist_enabled env st).1 = .error ew := by
  simp [persist_enabled, hread, hwrite]

/-! Characterizations of the lifecycle steps. -/

theorem enable_fail_fields (st : SMState) (id : String) (e : XErr) (src : String) :
    (enable_fail st id e src).1 = .error e
    ∧ (enable_fail st id e src).2.enabled = setDel st.enabled id
    ∧ (enable_fail st id e src).2.allow = st.allow :=
  ⟨rfl, rfl, rfl⟩

theorem enable_commit_fields (st2 : SMState) (id : String) (d : Descriptor)
    (r : ResolvedEntry) :
    (enable_commit st2 id d r).1 = .ok ()
    ∧ (enable_commit st2 id d r).2.enabled = setAdd st2.enabled id
    ∧ (enable_commit st2 id d r).2.allow = st2.allow :=
  ⟨rfl, rfl, rfl⟩

theorem enable_begin_fields (st : SMState) (id : String) (d : Descriptor) :
    (enable_begin st id d).enabled = st.enabled
    ∧ (enable_begin st id d).allow = st.allow :=
  ⟨rfl, rfl⟩

theorem enable_fast_state (env : ManagerEnv) (st : SMState) (id : String)
    (existing : LoadedRec)
    (h : (enable_fast env st id existing).1 = .ok ()) :
    (enable_fast env st id existing).2.allow = st.allow
    ∧ (enable_fast env st id existing).2.enabled = setAdd st.enabled id := by
  unfold enable_fast at h ⊢
  cases hb : bootstrap_skill_settings_defaults env id (alGet st.settings_meta id) <;>
    simp only [hb] at h ⊢
  case error e => exact absurd h (by simp)
  case ok u => refine ⟨?_, ?_⟩ <;> trivial

theorem enable_full_state (env : ManagerEnv) (st : SMState) (id : String)
    (h : (enable_full env st id).1 = .ok ()) :
    (enable_full env st id).2.allow = st.allow
    ∧ (enable_full env st id).2.enabled = setAdd st.enabled id := by
  unfold enable_full at h ⊢
  cases h1 : env.resolveEntry id <;> simp only [h1] at h ⊢
  case error e => exact absurd h (by simp)
  case ok resolved =>
  cases h2 : env.loadDescriptor id <;> simp only [h2] at h ⊢
  case error e => exact absurd h (by simp)
  case ok descriptor =>
  cases h3 : bootstrap_skill_settings_defaults env id descriptor.settings_meta <;>
    simp only [h3] at h ⊢
  case error e =>
    rw [(enable_fail_fields (enable_begin st id descriptor) id e resolved.source).1] at h
    exact absurd h (by simp)
  case ok u =>
  rcases h4 : apply_registrations id (enable_begin st id descriptor)
      (env.onEnable id).registrations with ⟨rr, str⟩
  obtain ⟨a1, a2, -, -⟩ := apply_registrations_frame id
    (env.onEnable id).registrations (enable_begin st id descriptor)
  rw [h4] at a1 a2
  cases rr with
  | error e =>
    simp only [h4] at h ⊢
    rw [(enable_fail_fields str id e resolved.source).1] at h
    exact absurd h (by simp)
  | ok u2 =>
    simp only [h4] at h ⊢
    cases h5 : (env.onEnable id).outcome <;> simp only [h5] at h ⊢
    case error e =>
      rw [(enable_fail_fields str id e resolved.source).1] at h
      exact absurd h (by simp)
    case ok u3 =>
      refine ⟨?_, ?_⟩
      · exact (enable_commit_fields str id descriptor resolved).2.2.trans
          (a2.trans (enable_begin_fields st id descriptor).2)
      · rw [(enable_commit_fields str id descriptor resolved).2.1,
          a1, (enable_begin_fields st id descriptor).1]

theorem enable_skill_ok_state (env : ManagerEnv) (st : SMState) (id : String)
    (h : (enable_skill env st id).1 = .ok ()) :
    id ∈ st.allow
    ∧ (enable_skill env st id).2.allow = st.allow
    ∧ ((enable_skill env st id).2.enabled = st.enabled ∧ id ∈ st.enabled
       ∨ (enable_skill env st id).2.enabled = setAdd st.enabled id) := by
  by_cases hallow : id ∈ st.allow
  case neg =>
    have hni : id ∉ st.allow := hallow
    simp [enable_skill, hni] at h
  case pos =>
    have hni : ¬ id ∉ st.allow := by simpa using hallow
    refine ⟨hallow, ?_⟩
    unfold enable_skill at h ⊢
    rw [if_neg hni] at h ⊢
    cases hrec : alGet st.loaded id <;> simp only [hrec] at h ⊢
    case none =>
      obtain ⟨ha, he⟩ := enable_full_state env st id h
      exact ⟨ha, Or.inr he⟩
    case some existing =>
      by_cases h1 : existing.status = .loaded ∧ id ∈ st.enabled
      · rw [if_pos h1] at h ⊢
        exact ⟨rfl, Or.inl ⟨rfl, h1.2⟩⟩
      · rw [if_neg h1] at h ⊢
        by_cases h2 : existing.status = .disabled ∧ (alGet st.runtime id).isSome
        · rw [if_pos h2] at h ⊢
          obtain ⟨ha, he⟩ := enable_fast_state env st id existing h
          exact ⟨ha, Or.inr he⟩
        · rw [if_neg h2] at h ⊢
          obtain ⟨ha, he⟩ := enable_full_state env st id h
          exact ⟨ha, Or.inr he⟩

theorem disable_skill_eq_ok (env : ManagerEnv) (st : SMState) (id : String)
    (h : id ∈ st.allow) :
    (disable_skill env st id).1 = .ok ()
    ∧ (disable_skill env st id).2.enabled = setDel st.enabled id
    ∧ (disable_skill env st id).2.allow = st.allow
    ∧ (disable_skill env st id).2.runtime = st.runtime
    ∧ (disable_skill env st id).2.settings_meta = st.settings_meta := by
  have hni : ¬ id ∉ st.allow := by simpa using h
  simp only [disable_skill, if_neg hni]
  refine ⟨?_, ?_, ?_, ?_, ?_⟩ <;> trivial

theorem disable_skill_loaded_status (env : ManagerEnv) (st : SMState) (id : String)
    (h : id ∈ st.allow) :
    ∃ rec : LoadedRec, alGet (disable_skill env st id).2.loaded id = some rec
      ∧ rec.status = .disabled := by
  have hni : ¬ id ∉ st.allow := by simpa using h
  simp only [disable_skill, if_neg hni]
  exact ⟨_, alGet_alSet_self _ _ _, rfl⟩

theorem bootstrap_ok (env : ManagerEnv) (id : String) (meta : Option SettingsMeta)
    (hgs : env.settingsGetSkill id = .ok ())
    (hgd : ∃ doc, env.settingsGetSkillsDoc = .ok doc)
    (hss : ∀ p, env.settingsSetSkill id p = .ok ()) :
    ∃ r, bootstrap_skill_settings_defaults env id meta = .ok r := by
  obtain ⟨doc, hdoc⟩ := hgd
  unfold bootstrap_skill_settings_defaults
  simp only [hgs]
  split
  · exact ⟨none, rfl⟩
  · simp only [hdoc]
    split
    · exact ⟨none, rfl⟩
    · simp only [hss]
      exact ⟨_, rfl⟩

theorem enable_skill_to_fast (env : ManagerEnv) (st : SMState) (id : String)
    (rec : LoadedRec)
    (hallow : id ∈ st.allow)
    (hrec : alGet st.loaded id = some rec)
    (hdis : rec.status = .disabled)
    (hrt : (alGet st.runtime id).isSome = true) :
    enable_skill env st id = enable_fast env st id rec := by
  have hni : ¬ id ∉ st.allow := by simpa using hallow
  have hnl : ¬ (rec.status = .loaded ∧ id ∈ st.enabled) := by
    rintro ⟨hL, -⟩
    rw [hdis] at hL
    exact SkillStatus.noConfusion hL
  simp only [enable_skill, if_neg hni, hrec]
  rw [if_neg hnl, if_pos ⟨hdis, hrt⟩]

theorem enable_fast_ok_of_boot (env : ManagerEnv) (st : SMState) (id : String)
    (existing : LoadedRec) {r2 : Option JVal}
    (hb : bootstrap_skill_settings_defaults env id (alGet st.settings_meta id) = .ok r2) :
    (enable_fast env st id existing).1 = .ok ()
    ∧ (enable_fast env st id existing).2.enabled = setAdd st.enabled id := by
  simp only [enable_fast, hb]
  refine ⟨?_, ?_⟩ <;> trivial

/-- Ownership coherence: a module in some skill's owned set is mapped back
to exactly that skill.  This is the inductive invariant behind "each module
name is owned by at most one skill". -/
def OwnCoherent (st : SMState) : Prop :=
  ∀ s m, m ∈ (alGet st.skill_modules s).getD [] → alGet st.module_skill m = some s

theorem record_ownership_coherent {st : SMState} {sid name : String}
    (hc : OwnCoherent st)
    (hm : alGet st.module_skill name = none ∨ alGet st.module_skill name = some sid) :
    OwnCoherent (record_ownership st sid name) := by
  intro s m hmem
  unfold record_ownership at hmem ⊢
  simp only at hmem ⊢
  by_cases hs : s = sid
  · subst hs
    rw [alGet_alSet_self] at hmem
    simp only [Option.getD_some] at hmem
    rcases mem_setAdd.mp hmem with rfl | hold
    · exact alGet_alSet_self _ _ _
    · by_cases hmn : m = name
      · subst hmn; exact alGet_alSet_self _ _ _
      · rw [alGet_alSet_ne _ _ (fun hh => hmn hh.symm)]
        exact hc s m hold
  · rw [alGet_alSet_ne _ _ (fun hh => hs hh.symm)] at hmem
    have hold := hc s m hmem
    by_cases hmn : m = name
    · subst hmn
      rcases hm with hm | hm
      · rw [hm] at hold; cases hold
      · rw [hm] at hold
        injection hold with hh
        exact absurd hh.symm hs
    · rw [alGet_alSet_ne _ _ (fun hh => hmn hh.symm)]
      exact hold

/-- C6: module-ownership exclusivity.  `registerModule` preserves ownership
coherence, hence each module name is owned by at most one skill in every
state reachable through it (no other operation touches the ownership maps);
registering a name owned by a different skill fails with ModuleConflict, and
registering a name that already exists in the module registry but is owned
by no skill also fails with ModuleConflict. -/
theorem claim_C6 :
    (∀ (st : SMState) (sid name : String) (st' : SMState),
      OwnCoherent st → register_module st sid name = .ok st' →
      OwnCoherent st'
      ∧ ∀ s1 s2 m, m ∈ (alGet st'.skill_modules s1).getD []
        → m ∈ (alGet st'.skill_modules s2).getD [] → s1 = s2)
    ∧ (∀ (st : SMState) (sid name owner : String),
      jsTrim name = name → name ≠ "" →
      alGet st.module_skill name = some owner → owner ≠ sid →
      ∃ e, register_module st sid name = .error e ∧ e.kind = .moduleConflict)
    ∧ (∀ (st : SMState) (sid name : String),
      jsTrim name = name → name ≠ "" →
      alGet st.module_skill name = none → name ∈ st.registry →
      ∃ e, register_module st sid name = .error e ∧ e.kind = .moduleConflict) := by
  refine ⟨?_, ?_, ?_⟩
  · intro st sid name st' hc h
    have hcoh : OwnCoherent st' := by
      unfold register_module at h
      cases hn : ensure_non_empty_str name "module _name" with
      | error e => simp [hn] at h
      | ok mname =>
        simp only [hn] at h
        split at h
        · exact Except.noConfusion h
        · rename_i hcond
          have hm : alGet st.module_skill mname = none
              ∨ alGet st.module_skill mname = some sid := by
            by_cases h0 : alGet st.module_skill mname = none
            · exact Or.inl h0
            · by_cases h1 : alGet st.module_skill mname = some sid
              · exact Or.inr h1
              · exact absurd ⟨h0, h1⟩ hcond
          split at h
          · injection h with h2
            subst h2
            exact @record_ownership_coherent
              { st with registry := st.registry ++ [mname] } sid mname hc hm
          · split at h
            · exact Except.noConfusion h
            · injection h with h2
              subst h2
              exact record_ownership_coherent hc hm
    refine ⟨hcoh, fun s1 s2 m h1 h2 => ?_⟩
    have e1 := hcoh s1 m h1
    have e2 := hcoh s2 m h2
    rw [e1] at e2
    injection e2

  · intro st sid name owner ht h0 hmap hne
    refine ⟨⟨.moduleConflict, "Module '" ++ name ++ "' already registered"⟩, ?_, rfl⟩
    have hcond : alGet st.module_skill name ≠ none
        ∧ alGet st.module_skill name ≠ some sid := by
      constructor
      · rw [hmap]; simp
      · rw [hmap]
        intro hh
        injection hh with hh2
        exact hne hh2
    simp [register_module, ensure_non_empty_str, ht, h0, hcond]
  · intro st sid name ht h0 hmap hreg
    refine ⟨⟨.moduleConflict,
      "Module '" ++ name ++ "' already exists and is not managed by skill '"
        ++ sid ++ "'"⟩, ?_, rfl⟩
    have hcond : ¬ (alGet st.module_skill name ≠ none
        ∧ alGet st.module_skill name ≠ some sid) := by
      rintro ⟨h1, -⟩; exact h1 hmap
    have hreg2 : ¬ name ∉ st.registry := by simpa using hreg
    simp [register_module, ensure_non_empty_str, ht, h0, hcond, hreg2, hmap]

/-- C6 witness: a fresh registration succeeds and keeps ownership coherent;
a name owned by another skill conflicts; an unowned pre-existing registry
module conflicts. -/
theorem claim_C6_witness :
    (OwnCoherent (record_ownership
        { allow := [], cfg_enabled := [], node_modules := true, local_paths := [],
          enabled := [], activating := [], loaded := [], runtime := [],
          skill_modules := [], module_skill := [], settings_meta := [],
          registry := ["m1"] } "sk" "m1")
      ∧ ∀ s1 s2 m,
        m ∈ (alGet (record_ownership
          { allow := [], cfg_enabled := [], node_modules := true, local_paths := [],
            enabled := [], activating := [], loaded := [], runtime := [],
            skill_modules := [], module_skill := [], settings_meta := [],
            registry := ["m1"] } "sk" "m1").skill_modules s1).getD []
        → m ∈ (alGet (record_ownership
          { allow := [], cfg_enabled := [], node_modules := true, local_paths := [],
            enabled := [], activating := [], loaded := [], runtime := [],
            skill_modules := [], module_skill := [], settings_meta := [],
            registry := ["m1"] } "sk" "m1").skill_modules s2).getD []
        → s1 = s2)
    ∧ (∃ e, register_module
        { allow := [], cfg_enabled := [], node_modules := true, local_paths := [],
          enabled := [], activating := [], loaded := [], runtime := [],
          skill_modules := [("other", ["m0"])], module_skill := [("m0", "other")],
          settings_meta := [], registry := ["m0"] } "sk" "m0"
        = .error e ∧ e.kind = .moduleConflict)
    ∧ (∃ e, register_module
        { allow := [], cfg_enabled := [], node_modules := true, local_paths := [],
          enabled := [], activating := [], loaded := [], runtime := [],
          skill_modules := [], module_skill := [], settings_meta := [],
          registry := ["m2"] } "sk" "m2"
        = .error e ∧ e.kind = .moduleConflict) := by
  refine ⟨?_, ?_, ?_⟩
  · exact claim_C6.1
      { allow := [], cfg_enabled := [], node_modules := true, local_paths := [],
        enabled := [], activating := [], loaded := [], runtime := [],
        skill_modules := [], module_skill := [], settings_meta := [],
        registry := [] } "sk" "m1" _
      (fun s m hm => by simp [alGet] at hm) rfl
  · exact claim_C6.2.1 _ "sk" "m0" "other" rfl (by decide) rfl (by decide)
  · exact claim_C6.2.2 _ "sk" "m2" rfl (by decide) rfl (by decide)

/-- C7: the defaults bootstrap is first-write-wins — with the settings
backend available, a skill declaring non-empty object defaults gets exactly
those defaults written verbatim when no bucket for its id exists in the
root settings document, and nothing is written (even for an empty existing
bucket) when a bucket already exists. -/
theorem claim_C7 (env : ManagerEnv) (id : String) (m : SettingsMeta)
    (dflts : JFields) (doc : JVal)
    (hgs : env.settingsGetSkill id = .ok ())
    (hgd : env.settingsGetSkillsDoc = .ok doc)
    (hd : m.defaults = some (.vobj dflts))
    (hne : isEmptyFields dflts = false)
    (hset : env.settingsSetSkill id (.vobj dflts) = .ok ()) :
    (objHasKey (skills_bucket_of doc) id = false →
      bootstrap_skill_settings_defaults env id (some m) = .ok (some (.vobj dflts)))
    ∧ (objHasKey (skills_bucket_of doc) id = true →
      bootstrap_skill_settings_defaults env id (some m) = .ok none) := by
  constructor <;> intro hb <;>
    simp [bootstrap_skill_settings_defaults, hgs, hgd, hd, hne, hb, hset]

/-- C8: enabling a skill id absent from the allow list fails with
NotAllowlisted and leaves the entire manager state — the enabled set in
particular — exactly unchanged (the check precedes any mutation). -/
theorem claim_C8 (env : ManagerEnv) (secret : String) (st : SMState) (xcmd : XCmd)
    (pfs : JFields) (id : String)
    (hauth : requireKernelCapOrActorRole secret (readCommandCtx xcmd) "admin" = .ok ())
    (hparams : xcmd._params = some (.vobj pfs))
    (hpf : has_function (.vobj pfs) = false)
    (hid : objGet pfs "id" = some (.vstr id))
    (hidt : jsTrim id = id) (hid0 : id ≠ "")
    (hallow : id ∉ st.allow) :
    enable_impl env secret st xcmd
      = (.error ⟨.notAllowlisted, "Skill id is not in allowlist: " ++ id⟩, st) := by
  have hep : ensure_params xcmd._params = .ok pfs := by
    rw [hparams]; simp [ensure_params, hpf]
  have hid2 : ensure_non_empty_string (objGet pfs "id") "id" = .ok id := by
    simp [ensure_non_empty_string, hid, ensure_non_empty_str, hidt, hid0]
  have hes : enable_skill env st id
      = (.error ⟨.notAllowlisted, "Skill id is not in allowlist: " ++ id⟩, st) := by
    simp [enable_skill, hallow]
  simp [enable_impl, hauth, hep, hid2, hes]

/-- A manager environment in which every external call succeeds (package
resolution aside) — used to instantiate command-level theorems. -/
def envTrivial : ManagerEnv where
  resolveEntry := fun _ => .error ⟨.resolveFailed, "no strategy"⟩
  loadDescriptor := fun _ => .error ⟨.badExport, "no export"⟩
  onEnable := fun _ => { registrations := [], outcome := .ok () }
  onDisable := fun _ => .ok ()
  settingsGetSkill := fun _ => .ok ()
  settingsGetSkillsDoc := .ok .vnull
  settingsSetSkill := fun _ _ => .ok ()
  readConfigFile := .ok none
  writeConfigFile := fun _ => .ok ()

/-- A command carrying `{id: "s1"}` from an admin-role actor. -/
def xcmdS1 : XCmd where
  _params := some (.vobj (.fcons "id" (.vstr "s1") .fnil))
  _ctx := some (.vobj (.fcons "actor"
    (.vobj (.fcons "role" (.vstr "admin") .fnil)) .fnil))

/-- The empty manager state. -/
def stEmpty : SMState where
  allow := []
  cfg_enabled := []
  node_modules := true
  local_paths := []
  enabled := []
  activating := []
  loaded := []
  runtime := []
  skill_modules := []
  module_skill := []
  settings_meta := []
  registry := []

/-- C8 witness: enabling the non-allow-listed "s1" on the empty state. -/
theorem claim_C8_witness :
    enable_impl envTrivial "kernel-cap-secret" stEmpty xcmdS1
      = (.error ⟨.notAllowlisted, "Skill id is not in allowlist: " ++ "s1"⟩, stEmpty) :=
  claim_C8 envTrivial "kernel-cap-secret" stEmpty xcmdS1
    (.fcons "id" (.vstr "s1") .fnil) "s1" rfl rfl rfl rfl rfl (by decide) (by decide)

/-- C7 witness: fresh bucket gets the declared defaults verbatim. -/
theorem claim_C7_witness :
    bootstrap_skill_settings_defaults envTrivial "s1"
      (some { defaults := some (.vobj (.fcons "greeting" (.vstr "hi") .fnil)) })
      = .ok (some (.vobj (.fcons "greeting" (.vstr "hi") .fnil))) :=
  (claim_C7 envTrivial "s1"
    { defaults := some (.vobj (.fcons "greeting" (.vstr "hi") .fnil)) }
    (.fcons "greeting" (.vstr "hi") .fnil) .vnull
    rfl rfl rfl rfl rfl).1 rfl

/-- C10: the enabled set is a subset of the allow list at the persistence
boundary.  Reading the configuration filters the (trimmed, de-duplicated)
enabled ids to allow-listed ones; the persisted document stores under
`skills.enabled` exactly the sorted enabled ids that are allow-listed,
while every sibling key of the backing document outside `skills` is
preserved verbatim; the in-memory config is updated to the same list. -/
theorem claim_C10 :
    (∀ (fileDoc : Option JVal) (cfg : AgentCfg),
      read_agent_config fileDoc = .ok cfg → ∀ x ∈ cfg.enabled, x ∈ cfg.allow)
    ∧ (∀ (st : SMState) (x : String),
      x ∈ persistedEnabledList st ↔ x ∈ st.enabled ∧ x ∈ st.allow)
    ∧ (∀ (st : SMState) (enabledList : List String) (fileDoc : Option JVal),
      (∃ sk, objGet (build_persisted_config st enabledList fileDoc) "skills"
          = some (.vobj sk)
        ∧ objGet sk "enabled" = some (.varr (jarrOfStrings enabledList)))
      ∧ ∀ k, k ≠ "skills" →
        objGet (build_persisted_config st enabledList fileDoc) k
          = objGet (parsedFieldsOf fileDoc) k)
    ∧ (∀ (env : ManagerEnv) (st : SMState),
      (persist_enabled env st).2.cfg_enabled = persistedEnabledList st) := by
  refine ⟨?_, ?_, ?_, ?_⟩
  · intro fileDoc cfg h x hx
    cases fileDoc with
    | none =>
      simp only [read_agent_config] at h
      injection h with h2
      subst h2
      simp at hx
    | some v =>
      cases v with
      | vobj fs =>
        simp only [read_agent_config] at h
        injection h with h2
        subst h2
        simp only at hx
        exact (List.mem_filter.mp hx).2.symm ▸ (by
          have := (List.mem_filter.mp hx).2
          simp only [decide_eq_true_eq] at this
          exact this)
      | vnull => simp [read_agent_config] at h
      | vbool b => simp [read_agent_config] at h
      | vnum n => simp [read_agent_config] at h
      | vstr s => simp [read_agent_config] at h
      | varr xs => simp [read_agent_config] at h
  · intro st x
    unfold persistedEnabledList
    rw [List.mem_filter, mem_sortStrings]
    simp
  · intro st enabledList fileDoc
    constructor
    · refine ⟨_, objGet_objSet_self _ _ _, ?_⟩
      rw [objGet_objSet_ne _ _ (by decide), objGet_objSet_self]
    · intro k hk
      exact objGet_objSet_ne _ _ (fun hh => hk hh.symm)
  · intro env st
    rfl

/-- A concrete parsed configuration, for witnessing C10. -/
def cfgW : AgentCfg where
  allow := ["a"]
  enabled := ["a"]
  node_modules := true
  local_paths := []

/-- C10 witness: a concrete document exercises the read filter and the
sibling-preserving rewrite. -/
theorem claim_C10_witness :
    (∀ x ∈ cfgW.enabled, x ∈ cfgW.allow)
    ∧ (∃ sk, objGet (build_persisted_config stEmpty []
          (some (.vobj (.fcons "other" (.vnum 7) .fnil)))) "skills"
        = some (.vobj sk)
      ∧ objGet sk "enabled" = some (.varr (jarrOfStrings [])))
    ∧ objGet (build_persisted_config stEmpty []
        (some (.vobj (.fcons "other" (.vnum 7) .fnil)))) "other"
      = objGet (parsedFieldsOf (some (.vobj (.fcons "other" (.vnum 7) .fnil)))) "other" := by
  refine ⟨?_, ?_, ?_⟩
  · exact claim_C10.1
      (some (.vobj (.fcons "skills" (.vobj
        (.fcons "allow" (.varr (.acons (.vstr "a") .anil))
          (.fcons "enabled" (.varr (.acons (.vstr "a") (.acons (.vstr "b") .anil)))
            .fnil))) .fnil)))
      cfgW
      rfl
  · exact (claim_C10.2.2.1 stEmpty []
      (some (.vobj (.fcons "other" (.vnum 7) .fnil)))).1
  · exact (claim_C10.2.2.1 stEmpty []
      (some (.vobj (.fcons "other" (.vnum 7) .fnil)))).2 "other" (by decide)

/-!
Claim C5 (persistence atomicity).  For the enable command the rollback is
unconditional: the compensating `disable_skill` cannot throw for an id
whose enable just succeeded.  For the disable command the rollback is a
real re-enable whose fast path re-runs the settings bootstrap; when that
bootstrap itself throws (for example the same broken storage that failed
the config write), the compensation is swallowed by the empty catch and
the id stays disabled, so the enabled set does NOT equal its pre-call
value even though PersistFailed is surfaced
(`claim_C5_counterexample`). -/

/-- C5 (amended): if the backing configuration write throws, the command
surfaces PersistFailed; the in-memory enabled set equals its pre-call
value — unconditionally for the enable command (whenever its enable step
succeeded), and for the disable command provided the compensating
re-enable can complete (runtime record present and settings backend
available for its bootstrap). -/
theorem claim_C5 (env : ManagerEnv) (secret : String) (st : SMState) (xcmd : XCmd)
    (pfs : JFields) (id : String) (ew : XErr) (fileDoc : Option JVal)
    (hauth : requireKernelCapOrActorRole secret (readCommandCtx xcmd) "admin" = .ok ())
    (hparams : xcmd._params = some (.vobj pfs))
    (hpf : has_function (.vobj pfs) = false)
    (hid : objGet pfs "id" = some (.vstr id))
    (hidt : jsTrim id = id) (hid0 : id ≠ "")
    (hread : env.readConfigFile = .ok fileDoc)
    (hwrite : ∀ d, env.writeConfigFile d = .error ew) :
    ((enable_skill env st id).1 = .ok () →
      (enable_impl env secret st xcmd).1
        = .error ⟨.persistFailed, "Failed to save enabled skills to agent.config.json"⟩
      ∧ ∀ x, x ∈ (enable_impl env secret st xcmd).2.enabled ↔ x ∈ st.enabled)
    ∧ (id ∈ st.allow →
       (alGet st.runtime id).isSome = true →
       env.settingsGetSkill id = .ok () →
       (∃ doc, env.settingsGetSkillsDoc = .ok doc) →
       (∀ p, env.settingsSetSkill id p = .ok ()) →
      (disable_impl env secret st xcmd).1
        = .error ⟨.persistFailed, "Failed to save enabled skills to agent.config.json"⟩
      ∧ ∀ x, x ∈ (disable_impl env secret st xcmd).2.enabled ↔ x ∈ st.enabled) := by
  have hep : ensure_params xcmd._params = .ok pfs := by
    rw [hparams]; simp [ensure_params, hpf]
  have hid2 : ensure_non_empty_string (objGet pfs "id") "id" = .ok id := by
    simp [ensure_non_empty_string, hid, ensure_non_empty_str, hidt, hid0]
  constructor
  · -- enable command
    intro hok
    obtain ⟨hallow, hallowEq, hEn⟩ := enable_skill_ok_state env st id hok
    unfold enable_impl
    simp only [hauth, hep, hid2]
    rcases hE : enable_skill env st id with ⟨r, st1⟩
    have hr : r = .ok () := by rw [hE] at hok; exact hok
    subst hr
    rw [hE] at hallowEq hEn
    simp only at hallowEq hEn
    have hpfail := persist_enabled_fails env st1 hread hwrite
    obtain ⟨p1, p2, -, -, -⟩ := persist_enabled_frame env st1
    rcases hP : persist_enabled env st1 with ⟨pr, st2⟩
    rw [hP] at hpfail p1 p2
    simp only at hpfail p1 p2
    subst hpfail
    simp only [hP]
    by_cases hwas : id ∈ st.enabled
    · rw [if_pos hwas]
      refine ⟨rfl, fun x => ?_⟩
      have h1 : st2.enabled = st.enabled := by
        rcases hEn with ⟨heq, -⟩ | heq
        · rw [p1, heq]
        · rw [p1, heq, setAdd_of_mem hwas]
      rw [h1]
    · rw [if_neg hwas]
      have henl : st1.enabled = setAdd st.enabled id := by
        rcases hEn with ⟨-, hmem⟩ | heq
        · exact absurd hmem hwas
        · exact heq
      have hallow2 : id ∈ st2.allow := by rw [p2, hallowEq]; exact hallow
      obtain ⟨-, d2, -, -, -⟩ := disable_skill_eq_ok env st2 id hallow2
      refine ⟨rfl, fun x => ?_⟩
      simp only
      rw [d2, p1, henl, setDel_setAdd_of_not_mem hwas]
  · -- disable command
    intro hallow hrt hgs hgd hss
    unfold disable_impl
    simp only [hauth, hep, hid2]
    obtain ⟨d1, d2, d3, d4, d5⟩ := disable_skill_eq_ok env st id hallow
    obtain ⟨drec, hdrec, hdst⟩ := disable_skill_loaded_status env st id hallow
    rcases hD : disable_skill env st id with ⟨rd, st1⟩
    rw [hD] at d1 d2 d3 d4 d5 hdrec
    simp only at d1 d2 d3 d4 d5 hdrec
    subst d1
    simp only [hD]
    have hpfail := persist_enabled_fails env st1 hread hwrite
    obtain ⟨p1, p2, p3, p4, p5⟩ := persist_enabled_frame env st1
    rcases hP : persist_enabled env st1 with ⟨pr, st2⟩
    rw [hP] at hpfail p1 p2 p3 p4 p5
    simp only at hpfail p1 p2 p3 p4 p5
    subst hpfail
    simp only [hP]
    by_cases hwas : id ∈ st.enabled
    · rw [if_pos hwas]
      have hallow2 : id ∈ st2.allow := by rw [p2, d3]; exact hallow
      have hrec2 : alGet st2.loaded id = some drec := by rw [p3]; exact hdrec
      have hrt2 : (alGet st2.runtime id).isSome = true := by
        rw [p4, d4]; exact hrt
      have hfast := enable_skill_to_fast env st2 id drec hallow2 hrec2 hdst hrt2
      have hmeta : alGet st2.settings_meta id = alGet st.settings_meta id := by
        rw [p5, d5]
      obtain ⟨br, hbr⟩ := bootstrap_ok env id (alGet st2.settings_meta id) hgs hgd hss
      obtain ⟨-, hfen⟩ := enable_fast_ok_of_boot env st2 id drec hbr
      refine ⟨rfl, fun x => ?_⟩
      simp only
      rw [hfast, hfen, p1, d2]
      exact mem_setAdd_setDel hwas
    · rw [if_neg hwas]
      refine ⟨rfl, fun x => ?_⟩
      rw [p1, d2, setDel_of_not_mem hwas]

/-- A state with skill "s1" allow-listed, enabled, loaded, and carrying a
runtime record — the normal situation after a successful enable. -/
def stW : SMState where
  allow := ["s1"]
  cfg_enabled := ["s1"]
  node_modules := true
  local_paths := []
  enabled := ["s1"]
  activating := []
  loaded := [("s1",
    { version := some "1.0.0", enabled := true, status := .loaded,
      source := some "local:/repo/skills/s1", capabilities := some {},
      modules_registered := some [] })]
  runtime := [("s1",
    { version := "1.0.0", kind := "xbot", capabilities := {},
      source := "local:/repo/skills/s1", hasOnDisable := false })]
  skill_modules := []
  module_skill := []
  settings_meta := [("s1", {})]
  registry := []

/-- A manager environment whose config-file write fails but whose settings
backend works. -/
def envC5w : ManagerEnv where
  resolveEntry := fun _ => .error ⟨.resolveFailed, "no strategy"⟩
  loadDescriptor := fun _ => .error ⟨.badExport, "no export"⟩
  onEnable := fun _ => { registrations := [], outcome := .ok () }
  onDisable := fun _ => .ok ()
  settingsGetSkill := fun _ => .ok ()
  settingsGetSkillsDoc := .ok .vnull
  settingsSetSkill := fun _ _ => .ok ()
  readConfigFile := .ok none
  writeConfigFile := fun _ => .error ⟨.external, "disk full"⟩

/-- A manager environment in which both the config-file write and the
settings backend fail — the same broken disk seen twice. -/
def envC5c : ManagerEnv where
  resolveEntry := fun _ => .error ⟨.resolveFailed, "no strategy"⟩
  loadDescriptor := fun _ => .error ⟨.badExport, "no export"⟩
  onEnable := fun _ => { registrations := [], outcome := .ok () }
  onDisable := fun _ => .ok ()
  settingsGetSkill := fun _ => .error ⟨.external, "storage offline"⟩
  settingsGetSkillsDoc := .error ⟨.external, "storage offline"⟩
  settingsSetSkill := fun _ _ => .error ⟨.external, "storage offline"⟩
  readConfigFile := .ok none
  writeConfigFile := fun _ => .error ⟨.external, "disk full"⟩

/-- C5 counterexample: with the settings backend also failing, the disable
command's compensating re-enable throws inside its bootstrap and is
swallowed, so PersistFailed is surfaced but the enabled set after the call
(`[]`) differs from its pre-call value (`["s1"]`) — the claim's
unconditional atomicity is false. -/
theorem claim_C5_counterexample :
    (disable_impl envC5c "kernel-cap" stW xcmdS1).1
      = .error ⟨.persistFailed, "Failed to save enabled skills to agent.config.json"⟩
    ∧ stW.enabled = ["s1"]
    ∧ (disable_impl envC5c "kernel-cap" stW xcmdS1).2.enabled = [] :=
  ⟨rfl, rfl, rfl⟩

/-- C5 witness: with a working settings backend both commands surface
PersistFailed and preserve the enabled set. -/
theorem claim_C5_witness :
    (enable_impl envC5w "kernel-cap" stW xcmdS1).1
      = .error ⟨.persistFailed, "Failed to save enabled skills to agent.config.json"⟩
    ∧ (∀ x, x ∈ (enable_impl envC5w "kernel-cap" stW xcmdS1).2.enabled
        ↔ x ∈ stW.enabled)
    ∧ (disable_impl envC5w "kernel-cap" stW xcmdS1).1
      = .error ⟨.persistFailed, "Failed to save enabled skills to agent.config.json"⟩
    ∧ (∀ x, x ∈ (disable_impl envC5w "kernel-cap" stW xcmdS1).2.enabled
        ↔ x ∈ stW.enabled) := by
  have h := claim_C5 envC5w "kernel-cap" stW xcmdS1
    (.fcons "id" (.vstr "s1") .fnil) "s1" ⟨.external, "disk full"⟩ none
    rfl rfl rfl rfl rfl (by decide) rfl (fun _ => rfl)
  have ha := h.1 rfl
  have hb := h.2 (by decide) rfl rfl ⟨.vnull, rfl⟩ (fun _ => rfl)
  exact ⟨ha.1, ha.2, hb.1, hb.2⟩

/-! Local skill resolution (SkillManagerModule resolve_local_path and its
helpers).  Absolute filesystem paths are modelled as their segment lists
from the root (`/etc/index.js` is `["etc", "index.js"]`); raw path strings
are split on the slash and resolved segment by segment, with `.`/empty
segments skipped and `..` popping the last segment, exactly as
`path.resolve` does on already-absolute bases. -/

/-- True when a raw path string is absolute (starts with a slash). -/
def isAbsStr (s : String) : Bool :=
  match s.data with
  | '/' :: _ => true
  | _ => false

/-- Split a raw path string on '/' into segments (may contain empty, `.`
and `..` segments). -/
def slashSplit (s : String) : List String :=
  (splitCharsOn '/' s.data).map (fun cs => String.mk cs)

/-- Resolve a list of raw segments against an absolute base: empty and `.`
segments are skipped, `..` pops the last segment (staying at the
filesystem root when already there), anything else is appended. -/
def segResolve : List String → List String → List String
  | acc, [] => acc
  | acc, seg :: rest =>
    if seg = "" ∨ seg = "." then segResolve acc rest
    else if seg = ".." then segResolve acc.dropLast rest
    else segResolve (acc ++ [seg]) rest

/-- Node's path.resolve(base, raw) for an absolute base: an absolute raw
path is resolved from the filesystem root, a relative one against base. -/
def pathResolve (base : List String) (raw : String) : List String :=
  if isAbsStr raw then segResolve [] (slashSplit raw)
  else segResolve base (slashSplit raw)

/-- `is_path_within` from SkillManagerModule: the target equals the root or
lies strictly below it (the source compares the normalized target against
the normalized root plus a trailing separator, which on segment lists is
exactly the initial-segment test). -/
def is_path_within (target_path root_path : List String) : Bool :=
  target_path == root_path || segLe root_path target_path

/-- `ensure_optional_string` from SkillManagerModule: a string value is
trimmed, with blank results and non-strings mapped to none. -/
def ensure_optional_string (value : Option JVal) : Option String :=
  match value with
  | some (.vstr s) =>
    let trimmed := jsTrim s
    if trimmed = "" then none else some trimmed
  | _ => none

/-- External world seen by local resolution: reading and JSON-parsing a
file (none is ENOENT) and stat'ing a path for being a regular file (none
is ENOENT). -/
structure FSModel where
  readJson : List String → Option JVal
  statIsFile : List String → Option Bool

/-- `read_package_json` from SkillManagerModule: package.json under the
given root, ok-none on ENOENT, BadConfig when the parsed value is not a
plain object. -/
def read_package_json (fs : FSModel) (package_root : List String) :
    Except XErr (Option JFields) :=
  match fs.readJson (pathResolve package_root "package.json") with
  | none => .ok none
  | some (.vobj parsed) => .ok (some parsed)
  | some _ => .error ⟨.badConfig, "Invalid package.json object"⟩

/-- Entry selection from a conditional-exports object: import, then
default, then node, each through ensure_optional_string. -/
def root_export_entry (ro : JFields) : Option String :=
  (ensure_optional_string (objGet ro "import")).orElse (fun _ =>
    (ensure_optional_string (objGet ro "default")).orElse (fun _ =>
      ensure_optional_string (objGet ro "node")))

/-- Fallback entry when the exports field yields nothing: module, then
main, then "./index.js". -/
def fallback_entry (pkg : JFields) : String :=
  match ensure_optional_string (objGet pkg "module") with
  | some s => s
  | none =>
    match ensure_optional_string (objGet pkg "main") with
    | some s => s
    | none => "./index.js"

/-- `resolve_package_entry` from SkillManagerModule: pick the entry path
from exports (string, or object keyed by "." falling back to the object
itself when "." is absent or null), else from module/main/"./index.js"
(a JavaScript-falsy empty string also falls through), resolve it against
the package root and reject (BadConfig) an entry escaping that root. -/
def resolve_package_entry (package_root : List String) (pkg : JFields) :
    Except XErr (List String) :=
  let entry_rel0 : Option String :=
    match objGet pkg "exports" with
    | some (.vstr s) => some s
    | some (.vobj ef) =>
      (match objGet ef "." with
       | some (.vstr s) => some s
       | some (.vobj ro) => root_export_entry ro
       | some .vnull => root_export_entry ef
       | some _ => none
       | none => root_export_entry ef)
    | _ => none
  let entry_rel : String :=
    match entry_rel0 with
    | some s => if s = "" then fallback_entry pkg else s
    | none => fallback_entry pkg
  let entry_file := pathResolve package_root entry_rel
  if is_path_within entry_file package_root then .ok entry_file
  else .error ⟨.badConfig, "Invalid package entry path: " ++ entry_rel⟩

/-- `normalize_local_path` from SkillManagerModule: trim and reject blank,
make absolute against the repository root, reject (BadConfig) a configured
root escaping the repository root. -/
def normalize_local_path (repo_root : List String) (raw_local_path : String) :
    Except XErr (List String) :=
  match ensure_non_empty_str raw_local_path "local_paths[]" with
  | .error e => .error e
  | .ok normalized =>
    let absolute := pathResolve repo_root normalized
    if is_path_within absolute repo_root then .ok absolute
    else .error ⟨.badConfig,
      "local_paths entry escapes repo root: " ++ raw_local_path⟩

/-- One candidate directory of the resolve_local_path loop: read its
package.json (recording the path handed to the filesystem), skip on ENOENT
or name mismatch, otherwise resolve and stat the entry file (also
recorded).  Returns the outcome together with the list of filesystem paths
accessed. -/
def resolve_candidate (fs : FSModel) (id : String) (candidate : List String) :
    Except XErr (Option (List String)) × List (List String) :=
  let pjp := pathResolve candidate "package.json"
  match read_package_json fs candidate with
  | .error e => (.error e, [pjp])
  | .ok none => (.ok none, [pjp])
  | .ok (some pkg) =>
    match ensure_optional_string (objGet pkg "name") with
    | none => (.ok none, [pjp])
    | some package_name =>
      if package_name = id then
        match resolve_package_entry candidate pkg with
        | .error e => (.error e, [pjp])
        | .ok entry_file =>
          match fs.statIsFile entry_file with
          | none => (.error ⟨.external, "ENOENT: no such file"⟩,
              [pjp, entry_file])
          | some false =>
            (.error ⟨.resolveFailed, "Skill entry is not a file"⟩,
              [pjp, entry_file])
          | some true => (.ok (some entry_file), [pjp, entry_file])
      else (.ok none, [pjp])

/-- `resolve_local_path` from SkillManagerModule: normalize the configured
root, then try the root itself and path.resolve(root, id) in order.  The
second component is the list of filesystem paths read or stat'ed. -/
def resolve_local_path (fs : FSModel) (repo_root : List String)
    (id raw_local_path : String) :
    Except XErr (Option (List String)) × List (List String) :=
  match normalize_local_path repo_root raw_local_path with
  | .error e => (.error e, [])
  | .ok local_root =>
    match resolve_candidate fs id local_root with
    | (.ok none, t1) =>
      (match resolve_candidate fs id (pathResolve local_root id) with
       | (r, t2) => (r, t1 ++ t2))
    | (r, t1) => (r, t1)

/-- Filesystem for the C2 run: the repository /repo has no package.json,
while /etc/package.json exists with name "../../etc" and main
"./index.js", and /etc/index.js is a regular file. -/
def fsC2 : FSModel where
  readJson := fun p =>
    if p = ["etc", "package.json"] then
      some (.vobj (.fcons "name" (.vstr "../../etc")
        (.fcons "main" (.vstr "./index.js") .fnil)))
    else none
  statIsFile := fun p => if p = ["etc", "index.js"] then some true else none

/-- C2 (code_bug): resolving the local skill id "../../etc" against the
configured local root "." of repository root /repo does NOT fail with
BadConfig — it succeeds, returning the entry /etc/index.js, and along the
way it reads /etc/package.json and stats /etc/index.js, both outside the
repository root (is_path_within is false for them).  The source
containment-checks only the configured root (normalize_local_path) and the
entry relative to its package root, never the id-derived candidate
path.resolve(local_root, id), contradicting the intended containment. -/
theorem claim_C2 :
    (resolve_local_path fsC2 ["repo"] "../../etc" ".").1
        = .ok (some ["etc", "index.js"])
    ∧ (resolve_local_path fsC2 ["repo"] "../../etc" ".").2
        = [["repo", "package.json"], ["etc", "package.json"],
           ["etc", "index.js"]]
    ∧ is_path_within ["etc", "package.json"] ["repo"] = false
    ∧ is_path_within ["etc", "index.js"] ["repo"] = false :=
  ⟨rfl, rfl, rfl, rfl⟩

end XpellAgent
